import Mathlib

/-!
Verification of the nexlint workspace-hygiene checker.

This file shallowly embeds the parts of the nexlint repository that the
dependency-graph lint rules, the license-header content rule, the lint result
handler and the Git CLI wrapper are built from, and proves the spec's claims
about them.

Rust's `BTreeMap` (used by `DirectDepDups::run` and
`DirectDuplicateGitDependencies::run` in `nexlint-lints/src/guppy.rs`) is
modelled as an association list kept sorted by a strict comparison function.
String comparison is modelled as lexicographic comparison of the character
lists (for ASCII and because UTF-8 preserves code-point order, this agrees
with Rust's byte-wise `str` ordering).
-/

/-- A strict linear comparison, packaged as the laws the sorted-map proofs
need: irreflexivity, transitivity, and connectivity (two mutually
non-smaller elements are equal). -/
class StrictLt {α : Type} (r : α → α → Bool) : Prop where
  irrefl : ∀ a, r a a = false
  trans : ∀ a b c, r a b = true → r b c = true → r a c = true
  conn : ∀ a b, r a b = false → r b a = false → a = b

theorem StrictLt.asymm {α : Type} {r : α → α → Bool} [StrictLt r] (a b : α)
    (h : r a b = true) : r b a = false := by
  cases hba : r b a with
  | false => rfl
  | true =>
    have htr := StrictLt.trans (r := r) a b a h hba
    rw [StrictLt.irrefl (r := r) a] at htr
    exact absurd htr (by simp)

theorem StrictLt.ne_of_lt {α : Type} {r : α → α → Bool} [StrictLt r] (a b : α)
    (h : r a b = true) : a ≠ b := by
  intro he
  subst he
  rw [StrictLt.irrefl (r := r) a] at h
  exact absurd h (by simp)

/-- Comparison on `Nat` via `Nat.blt`; kernel-reducible. -/
def natLt (a b : Nat) : Bool := Nat.blt a b

theorem natLt_iff (a b : Nat) : natLt a b = true ↔ a < b := by
  simp [natLt]

theorem natLt_false_iff (a b : Nat) : natLt a b = false ↔ b ≤ a := by
  rw [← Bool.not_eq_true, natLt_iff]
  omega

instance : StrictLt natLt where
  irrefl a := by rw [natLt_false_iff]
  trans a b c h₁ h₂ := by
    rw [natLt_iff] at *
    omega
  conn a b h₁ h₂ := by
    rw [natLt_false_iff] at h₁ h₂
    omega

/-- Comparison on `Char` by code point. -/
def charLt (a b : Char) : Bool := decide (a < b)

instance : StrictLt charLt where
  irrefl a := by simp [charLt]
  trans a b c h₁ h₂ := by
    simp only [charLt, decide_eq_true_eq] at *
    exact lt_trans h₁ h₂
  conn a b h₁ h₂ := by
    simp only [charLt, decide_eq_false_iff_not, not_lt] at h₁ h₂
    exact le_antisymm h₂ h₁

/-- Lexicographic lifting of a strict comparison to lists. A proper prefix is
smaller; otherwise the first differing position decides. -/
def lexLt {α : Type} [DecidableEq α] (lt : α → α → Bool) : List α → List α → Bool
  | [], [] => false
  | [], _ :: _ => true
  | _ :: _, [] => false
  | a :: as, b :: bs => lt a b || (decide (a = b) && lexLt lt as bs)

theorem lexLt_cons {α : Type} [DecidableEq α] (lt : α → α → Bool) (a b : α)
    (as bs : List α) :
    lexLt lt (a :: as) (b :: bs) = true ↔
      lt a b = true ∨ (a = b ∧ lexLt lt as bs = true) := by
  simp [lexLt]

theorem lexLt_cons_false {α : Type} [DecidableEq α] (lt : α → α → Bool) (a b : α)
    (as bs : List α) :
    lexLt lt (a :: as) (b :: bs) = false ↔
      lt a b = false ∧ (a = b → lexLt lt as bs = false) := by
  rw [← Bool.not_eq_true, lexLt_cons]
  push_neg
  constructor
  · rintro ⟨h₁, h₂⟩
    exact ⟨by simpa using h₁, fun he => by simpa using h₂ he⟩
  · rintro ⟨h₁, h₂⟩
    exact ⟨by simp [h₁], fun he => by simp [h₂ he]⟩

instance {α : Type} [DecidableEq α] (lt : α → α → Bool) [StrictLt lt] :
    StrictLt (lexLt lt) where
  irrefl l := by
    induction l with
    | nil => rfl
    | cons a as ih =>
      rw [lexLt_cons_false]
      exact ⟨StrictLt.irrefl (r := lt) a, fun _ => ih⟩
  trans l₁ l₂ l₃ h₁ h₂ := by
    induction l₁ generalizing l₂ l₃ with
    | nil =>
      cases l₂ with
      | nil => exact absurd h₁ (by simp [lexLt])
      | cons b bs =>
        cases l₃ with
        | nil => exact absurd h₂ (by simp [lexLt])
        | cons c cs => simp [lexLt]
    | cons a as ih =>
      cases l₂ with
      | nil => exact absurd h₁ (by simp [lexLt])
      | cons b bs =>
        cases l₃ with
        | nil => exact absurd h₂ (by simp [lexLt])
        | cons c cs =>
          rw [lexLt_cons] at h₁ h₂ ⊢
          rcases h₁ with h₁ | ⟨rfl, h₁⟩
          · rcases h₂ with h₂ | ⟨rfl, h₂⟩
            · exact Or.inl (StrictLt.trans (r := lt) a b c h₁ h₂)
            · exact Or.inl h₁
          · rcases h₂ with h₂ | ⟨rfl, h₂⟩
            · exact Or.inl h₂
            · exact Or.inr ⟨rfl, ih bs cs h₁ h₂⟩
  conn l₁ l₂ h₁ h₂ := by
    induction l₁ generalizing l₂ with
    | nil =>
      cases l₂ with
      | nil => rfl
      | cons b bs => exact absurd h₁ (by simp [lexLt])
    | cons a as ih =>
      cases l₂ with
      | nil => exact absurd h₂ (by simp [lexLt])
      | cons b bs =>
        rw [lexLt_cons_false] at h₁ h₂
        have he : a = b := StrictLt.conn (r := lt) a b h₁.1 h₂.1
        subst he
        rw [ih bs (h₁.2 rfl) (h₂.2 rfl)]

/-- Byte-order comparison on strings, modelled on the character list. -/
def strLt (a b : String) : Bool := lexLt charLt a.data b.data

instance : StrictLt strLt where
  irrefl a := StrictLt.irrefl (r := lexLt charLt) a.data
  trans a b c h₁ h₂ := StrictLt.trans (r := lexLt charLt) a.data b.data c.data h₁ h₂
  conn a b h₁ h₂ := by
    have h := StrictLt.conn (r := lexLt charLt) a.data b.data h₁ h₂
    cases a
    cases b
    simp only at h
    rw [h]

/-- `semver::Version`, abstracted to its (major, minor, patch) triple with
the lexicographic order (pre-release tags are not used by the claims). -/
abbrev Version := Nat × Nat × Nat

/-- Lexicographic comparison of versions, the order `BTreeMap<&Version, _>`
iterates in. -/
def vLt (a b : Version) : Bool :=
  Nat.blt a.1 b.1 ||
    (decide (a.1 = b.1) &&
      (Nat.blt a.2.1 b.2.1 ||
        (decide (a.2.1 = b.2.1) && Nat.blt a.2.2 b.2.2)))

theorem vLt_iff (a b : Version) : vLt a b = true ↔
    a.1 < b.1 ∨ (a.1 = b.1 ∧ (a.2.1 < b.2.1 ∨ (a.2.1 = b.2.1 ∧ a.2.2 < b.2.2))) := by
  simp [vLt]

theorem vLt_false_iff (a b : Version) : vLt a b = false ↔
    ¬ (a.1 < b.1 ∨ (a.1 = b.1 ∧ (a.2.1 < b.2.1 ∨ (a.2.1 = b.2.1 ∧ a.2.2 < b.2.2)))) := by
  rw [← Bool.not_eq_true, vLt_iff]

instance : StrictLt vLt where
  irrefl a := by
    rw [vLt_false_iff]
    omega
  trans a b c h₁ h₂ := by
    rw [vLt_iff] at *
    omega
  conn a b h₁ h₂ := by
    rw [vLt_false_iff] at h₁ h₂
    obtain ⟨a₁, a₂, a₃⟩ := a
    obtain ⟨b₁, b₂, b₃⟩ := b
    simp only [Prod.mk.injEq]
    simp only at h₁ h₂
    omega

/-- `BTreeMap::entry(k).or_default()` followed by an in-place update of the
value: insert `f dflt` at `k` if absent, otherwise replace the value `v` at
`k` by `f v`. The list is kept sorted in strictly ascending key order. -/
def updGroup {α β : Type} [DecidableEq α] (lt : α → α → Bool) (k : α) (dflt : β)
    (f : β → β) : List (α × β) → List (α × β)
  | [] => [(k, f dflt)]
  | (k', v) :: rest =>
    if lt k k' then (k, f dflt) :: (k', v) :: rest
    else if lt k' k then (k', v) :: updGroup lt k dflt f rest
    else (k', f v) :: rest

/-- `BTreeMap` lookup on the association list. -/
def alookup {α β : Type} [DecidableEq α] (k : α) : List (α × β) → Option β
  | [] => none
  | (k', v) :: rest => if k = k' then some v else alookup k rest

/-- Keys strictly ascend, the `BTreeMap` representation invariant (implies
each key occurs at most once). -/
def sortedKeys {α β : Type} (lt : α → α → Bool) (m : List (α × β)) : Prop :=
  m.Pairwise (fun e₁ e₂ => lt e₁.1 e₂.1 = true)

theorem mem_updGroup {α β : Type} [DecidableEq α] (lt : α → α → Bool) [StrictLt lt]
    (k : α) (dflt : β) (f : β → β) (m : List (α × β)) :
    ∀ e ∈ updGroup lt k dflt f m, e.1 = k ∨ ∃ v, (e.1, v) ∈ m := by
  induction m with
  | nil =>
    intro e he
    simp only [updGroup, List.mem_singleton] at he
    subst he
    exact Or.inl rfl
  | cons hd rest ih =>
    obtain ⟨k', v⟩ := hd
    intro e he
    simp only [updGroup] at he
    by_cases h₁ : lt k k' = true
    · rw [if_pos h₁] at he
      simp only [List.mem_cons] at he
      rcases he with he | he | he
      · rw [he]; exact Or.inl rfl
      · rw [he]; exact Or.inr ⟨v, List.mem_cons_self _ _⟩
      · exact Or.inr ⟨e.2, List.mem_cons_of_mem _ (by simpa using he)⟩
    · rw [if_neg (by simpa using h₁)] at he
      by_cases h₂ : lt k' k = true
      · rw [if_pos h₂] at he
        simp only [List.mem_cons] at he
        rcases he with he | he
        · rw [he]; exact Or.inr ⟨v, List.mem_cons_self _ _⟩
        · rcases ih e he with h | ⟨v', hv'⟩
          · exact Or.inl h
          · exact Or.inr ⟨v', List.mem_cons_of_mem _ hv'⟩
      · rw [if_neg (by simpa using h₂)] at he
        have hke : k = k' := StrictLt.conn (r := lt) k k'
          (by simpa using h₁) (by simpa using h₂)
        simp only [List.mem_cons] at he
        rcases he with he | he
        · rw [he]; exact Or.inl hke.symm
        · exact Or.inr ⟨e.2, List.mem_cons_of_mem _ (by simpa using he)⟩

theorem updGroup_sorted {α β : Type} [DecidableEq α] (lt : α → α → Bool) [StrictLt lt]
    (k : α) (dflt : β) (f : β → β) (m : List (α × β)) (hs : sortedKeys lt m) :
    sortedKeys lt (updGroup lt k dflt f m) := by
  induction m with
  | nil => simp [updGroup, sortedKeys]
  | cons hd rest ih =>
    obtain ⟨k', v⟩ := hd
    rw [sortedKeys, List.pairwise_cons] at hs
    obtain ⟨hhd, hrest⟩ := hs
    simp only [updGroup]
    by_cases h₁ : lt k k' = true
    · rw [if_pos h₁]
      rw [sortedKeys, List.pairwise_cons]
      refine ⟨?_, ?_⟩
      · intro e he
        simp only [List.mem_cons] at he
        rcases he with he | he
        · rw [he]; exact h₁
        · exact StrictLt.trans (r := lt) k k' e.1 h₁ (hhd e he)
      · rw [sortedKeys] at *
        exact List.pairwise_cons.mpr ⟨hhd, hrest⟩
    · rw [if_neg (by simpa using h₁)]
      by_cases h₂ : lt k' k = true
      · rw [if_pos h₂]
        rw [sortedKeys, List.pairwise_cons]
        refine ⟨?_, ih hrest⟩
        intro e he
        rcases mem_updGroup lt k dflt f rest e he with h | ⟨v', hv'⟩
        · rw [h]; exact h₂
        · exact hhd (e.1, v') hv'
      · rw [if_neg (by simpa using h₂)]
        rw [sortedKeys, List.pairwise_cons]
        exact ⟨fun e he => hhd e he, hrest⟩

theorem alookup_eq_none {α β : Type} [DecidableEq α] (k : α) (m : List (α × β))
    (h : ∀ e ∈ m, e.1 ≠ k) : alookup k m = none := by
  induction m with
  | nil => rfl
  | cons hd rest ih =>
    obtain ⟨k', v⟩ := hd
    simp only [alookup]
    rw [if_neg]
    · exact ih fun e he => h e (List.mem_cons_of_mem _ he)
    · intro he
      exact h (k', v) (List.mem_cons_self _ _) (by simp [he])

theorem alookup_head_lt {α β : Type} [DecidableEq α] (lt : α → α → Bool) [StrictLt lt]
    (k : α) (m : List (α × β)) (_hs : sortedKeys lt m)
    (hlt : ∀ e ∈ m, lt k e.1 = true) : alookup k m = none := by
  apply alookup_eq_none
  intro e he hke
  exact StrictLt.ne_of_lt (r := lt) k e.1 (hlt e he) hke.symm

theorem alookup_updGroup_self {α β : Type} [DecidableEq α] (lt : α → α → Bool)
    [StrictLt lt] (k : α) (dflt : β) (f : β → β) (m : List (α × β))
    (hs : sortedKeys lt m) :
    alookup k (updGroup lt k dflt f m) = some (f ((alookup k m).getD dflt)) := by
  induction m with
  | nil => simp [updGroup, alookup]
  | cons hd rest ih =>
    obtain ⟨k', v⟩ := hd
    rw [sortedKeys, List.pairwise_cons] at hs
    obtain ⟨hhd, hrest⟩ := hs
    simp only [updGroup]
    by_cases h₁ : lt k k' = true
    · rw [if_pos h₁]
      have hnone : alookup k ((k', v) :: rest) = none := by
        apply alookup_eq_none
        intro e he hke
        simp only [List.mem_cons] at he
        rcases he with he | he
        · rw [he] at hke
          exact StrictLt.ne_of_lt (r := lt) k k' h₁ hke.symm
        · exact StrictLt.ne_of_lt (r := lt) k e.1
            (StrictLt.trans (r := lt) k k' e.1 h₁ (hhd e he)) hke.symm
      rw [hnone]
      simp [alookup]
    · rw [if_neg (by simpa using h₁)]
      by_cases h₂ : lt k' k = true
      · rw [if_pos h₂]
        have hne : k ≠ k' := fun he => StrictLt.ne_of_lt (r := lt) k' k h₂ he.symm
        simp only [alookup, if_neg hne]
        exact ih hrest
      · rw [if_neg (by simpa using h₂)]
        have hke : k = k' := StrictLt.conn (r := lt) k k'
          (by simpa using h₁) (by simpa using h₂)
        simp [alookup, hke]

theorem alookup_updGroup_other {α β : Type} [DecidableEq α] (lt : α → α → Bool)
    [StrictLt lt] (k k'' : α) (dflt : β) (f : β → β) (m : List (α × β))
    (hne : k'' ≠ k) :
    alookup k'' (updGroup lt k dflt f m) = alookup k'' m := by
  induction m with
  | nil => simp [updGroup, alookup, hne]
  | cons hd rest ih =>
    obtain ⟨k', v⟩ := hd
    simp only [updGroup]
    by_cases h₁ : lt k k' = true
    · rw [if_pos h₁]
      simp [alookup, hne]
    · rw [if_neg (by simpa using h₁)]
      by_cases h₂ : lt k' k = true
      · rw [if_pos h₂]
        simp only [alookup]
        by_cases hk'' : k'' = k'
        · simp [hk'']
        · simp only [if_neg hk'']
          exact ih
      · rw [if_neg (by simpa using h₂)]
        have hke : k = k' := StrictLt.conn (r := lt) k k'
          (by simpa using h₁) (by simpa using h₂)
        subst hke
        simp [alookup, hne]

/-- One step of the two-level `BTreeMap` grouping both duplicate rules use:
record item `(a, b, c)` by pushing `c` onto the `Vec` at outer key `a`,
inner key `b` (`entry(a).or_default().entry(b).or_default().push(c)`). -/
def group2Step {α β γ : Type} [DecidableEq α] [DecidableEq β]
    (lt₁ : α → α → Bool) (lt₂ : β → β → Bool)
    (m : List (α × List (β × List γ))) (t : α × β × γ) :
    List (α × List (β × List γ)) :=
  updGroup lt₁ t.1 []
    (fun inner => updGroup lt₂ t.2.1 [] (fun l => l ++ [t.2.2]) inner) m

/-- The grouped map built from a list of items, in item order. -/
def group2 {α β γ : Type} [DecidableEq α] [DecidableEq β]
    (lt₁ : α → α → Bool) (lt₂ : β → β → Bool) (ts : List (α × β × γ)) :
    List (α × List (β × List γ)) :=
  ts.foldl (group2Step lt₁ lt₂) []

/-- Membership through both levels of the grouped map. -/
def chainMem {α β γ : Type} [DecidableEq α] [DecidableEq β]
    (m : List (α × List (β × List γ))) (a : α) (b : β) (c : γ) : Prop :=
  ∃ vs pkgs, alookup a m = some vs ∧ alookup b vs = some pkgs ∧ c ∈ pkgs

/-- Invariant carried through the fold: both levels are sorted and the map
holds exactly the items seen so far. -/
def group2Inv {α β γ : Type} [DecidableEq α] [DecidableEq β]
    (lt₁ : α → α → Bool) (lt₂ : β → β → Bool)
    (m : List (α × List (β × List γ))) (s : List (α × β × γ)) : Prop :=
  sortedKeys lt₁ m ∧ (∀ e ∈ m, sortedKeys lt₂ e.2) ∧
    (∀ a b c, chainMem m a b c ↔ (a, b, c) ∈ s)

theorem alookup_mem {α β : Type} [DecidableEq α] (k : α) (m : List (α × β))
    (v : β) (h : alookup k m = some v) : (k, v) ∈ m := by
  induction m with
  | nil => simp [alookup] at h
  | cons hd rest ih =>
    obtain ⟨k', v'⟩ := hd
    simp only [alookup] at h
    by_cases hk : k = k'
    · rw [if_pos hk] at h
      injection h with h'
      rw [List.mem_cons]
      exact Or.inl (by rw [hk, h'])
    · rw [if_neg hk] at h
      exact List.mem_cons_of_mem _ (ih h)

/-- Every entry of the updated map is an old entry, or carries the value that
the update placed at key `k`. -/
theorem updGroup_val_mem {α β : Type} [DecidableEq α] (lt : α → α → Bool)
    [StrictLt lt] (k : α) (dflt : β) (f : β → β) (m : List (α × β))
    (hs : sortedKeys lt m) :
    ∀ e ∈ updGroup lt k dflt f m, e ∈ m ∨ e.2 = f ((alookup k m).getD dflt) := by
  induction m with
  | nil =>
    intro e he
    simp only [updGroup, List.mem_singleton] at he
    rw [he]
    simp [alookup]
  | cons hd rest ih =>
    obtain ⟨k', v⟩ := hd
    rw [sortedKeys, List.pairwise_cons] at hs
    obtain ⟨hhd, hrest⟩ := hs
    intro e he
    simp only [updGroup] at he
    by_cases h₁ : lt k k' = true
    · rw [if_pos h₁] at he
      simp only [List.mem_cons] at he
      rcases he with he | he | he
      · have hnone : alookup k ((k', v) :: rest) = (none : Option β) := by
          apply alookup_eq_none
          intro e' he' hke
          simp only [List.mem_cons] at he'
          rcases he' with he' | he'
          · rw [he'] at hke
            exact StrictLt.ne_of_lt (r := lt) k k' h₁ hke.symm
          · exact StrictLt.ne_of_lt (r := lt) k e'.1
              (StrictLt.trans (r := lt) k k' e'.1 h₁ (hhd e' he')) hke.symm
        exact Or.inr (by rw [he, hnone]; rfl)
      · rw [he]; exact Or.inl (List.mem_cons_self _ _)
      · exact Or.inl (List.mem_cons_of_mem _ he)
    · rw [if_neg (by simpa using h₁)] at he
      by_cases h₂ : lt k' k = true
      · rw [if_pos h₂] at he
        simp only [List.mem_cons] at he
        rcases he with he | he
        · rw [he]; exact Or.inl (List.mem_cons_self _ _)
        · have hne : k ≠ k' := fun hk => StrictLt.ne_of_lt (r := lt) k' k h₂ hk.symm
          rcases ih hrest e he with h | h
          · exact Or.inl (List.mem_cons_of_mem _ h)
          · refine Or.inr ?_
            rw [h]
            simp only [alookup, if_neg hne]
      · rw [if_neg (by simpa using h₂)] at he
        have hke : k = k' := StrictLt.conn (r := lt) k k'
          (by simpa using h₁) (by simpa using h₂)
        simp only [List.mem_cons] at he
        rcases he with he | he
        · rw [he]
          simp only [alookup, if_pos hke]
          exact Or.inr rfl
        · exact Or.inl (List.mem_cons_of_mem _ he)

theorem group2Step_inv {α β γ : Type} [DecidableEq α] [DecidableEq β]
    (lt₁ : α → α → Bool) (lt₂ : β → β → Bool) [StrictLt lt₁] [StrictLt lt₂]
    (m : List (α × List (β × List γ))) (s : List (α × β × γ)) (t : α × β × γ)
    (h : group2Inv lt₁ lt₂ m s) :
    group2Inv lt₁ lt₂ (group2Step lt₁ lt₂ m t) (s ++ [t]) := by
  obtain ⟨hs₁, hs₂, hmem⟩ := h
  obtain ⟨a, b, c⟩ := t
  have hinner : sortedKeys lt₂ ((alookup a m).getD []) := by
    cases hla : alookup a m with
    | none => simp [sortedKeys]
    | some vs =>
      simp only [Option.getD_some]
      exact hs₂ (a, vs) (alookup_mem a m vs hla)
  refine ⟨?_, ?_, ?_⟩
  · exact updGroup_sorted lt₁ a [] _ m hs₁
  · intro e he
    rcases updGroup_val_mem lt₁ a []
        (fun inner => updGroup lt₂ b [] (fun l => l ++ [c]) inner) m hs₁ e he with
      h | h
    · exact hs₂ e h
    · rw [h]
      exact updGroup_sorted lt₂ b [] _ _ hinner
  · intro a' b' c'
    have hlk := alookup_updGroup_self lt₁ a []
      (fun inner => updGroup lt₂ b [] (fun l => l ++ [c]) inner) m hs₁
    by_cases ha : a' = a
    · subst ha
      constructor
      · rintro ⟨vs, pkgs, hvs, hpkgs, hc⟩
        rw [group2Step] at hvs
        rw [hlk] at hvs
        injection hvs with hvs'
        subst hvs'
        by_cases hb : b' = b
        · subst hb
          rw [alookup_updGroup_self lt₂ b' [] _ _ hinner] at hpkgs
          injection hpkgs with hpkgs'
          subst hpkgs'
          rw [List.mem_append, List.mem_singleton] at hc
          rcases hc with hc | hc
          · -- c' was already grouped: chain membership in the old map
            rw [List.mem_append]
            refine Or.inl ((hmem a' b' c').mp ?_)
            cases hla : alookup a' m with
            | none => rw [hla] at hc; simp [alookup] at hc
            | some vs₀ =>
              rw [hla] at hc
              simp only [Option.getD_some] at hc
              cases hlb : alookup b' vs₀ with
              | none => rw [hlb] at hc; simp at hc
              | some pkgs₀ =>
                rw [hlb] at hc
                simp only [Option.getD_some] at hc
                exact ⟨vs₀, pkgs₀, hla, hlb, hc⟩
          · subst hc
            simp
        · rw [alookup_updGroup_other lt₂ b b' [] _ _ hb] at hpkgs
          rw [List.mem_append, List.mem_singleton]
          refine Or.inl ((hmem a' b' c').mp ?_)
          cases hla : alookup a' m with
          | none => rw [hla] at hpkgs; simp [alookup] at hpkgs
          | some vs₀ =>
            rw [hla] at hpkgs
            simp only [Option.getD_some] at hpkgs
            exact ⟨vs₀, pkgs, hla, hpkgs, hc⟩
      · intro hin
        rw [List.mem_append, List.mem_singleton] at hin
        rcases hin with hin | hin
        · obtain ⟨vs₀, pkgs₀, hvs₀, hpkgs₀, hc₀⟩ := (hmem a' b' c').mpr hin
          refine ⟨updGroup lt₂ b [] (fun l => l ++ [c]) ((alookup a' m).getD []), ?_⟩
          rw [group2Step, hlk]
          by_cases hb : b' = b
          · subst hb
            refine ⟨(alookup b' ((alookup a' m).getD [])).getD [] ++ [c], rfl, ?_, ?_⟩
            · rw [alookup_updGroup_self lt₂ b' [] _ _ hinner]
            · rw [hvs₀]
              simp only [Option.getD_some]
              rw [hpkgs₀]
              simp only [Option.getD_some]
              exact List.mem_append_left _ hc₀
          · refine ⟨pkgs₀, rfl, ?_, hc₀⟩
            rw [alookup_updGroup_other lt₂ b b' [] _ _ hb, hvs₀]
            simp only [Option.getD_some]
            exact hpkgs₀
        · have hb : b' = b := congrArg (fun x => x.2.1) hin
          have hc : c' = c := congrArg (fun x => x.2.2) hin
          subst hb
          subst hc
          refine ⟨updGroup lt₂ b' [] (fun l => l ++ [c']) ((alookup a' m).getD []), ?_⟩
          rw [group2Step, hlk]
          refine ⟨(alookup b' ((alookup a' m).getD [])).getD [] ++ [c'], rfl, ?_, ?_⟩
          · rw [alookup_updGroup_self lt₂ b' [] _ _ hinner]
          · exact List.mem_append_right _ (List.mem_singleton.mpr rfl)
    · constructor
      · rintro ⟨vs, pkgs, hvs, hpkgs, hc⟩
        rw [group2Step] at hvs
        rw [alookup_updGroup_other lt₁ a a' [] _ _ ha] at hvs
        rw [List.mem_append, List.mem_singleton]
        exact Or.inl ((hmem a' b' c').mp ⟨vs, pkgs, hvs, hpkgs, hc⟩)
      · intro hin
        rw [List.mem_append, List.mem_singleton] at hin
        rcases hin with hin | hin
        · obtain ⟨vs, pkgs, hvs, hpkgs, hc⟩ := (hmem a' b' c').mpr hin
          refine ⟨vs, pkgs, ?_, hpkgs, hc⟩
          rw [group2Step, alookup_updGroup_other lt₁ a a' [] _ _ ha]
          exact hvs
        · exact absurd (congrArg (fun x => x.1) hin) ha

/-- The grouped map of a full item list: both levels sorted, contents exactly
the items. -/
theorem group2_inv {α β γ : Type} [DecidableEq α] [DecidableEq β]
    (lt₁ : α → α → Bool) (lt₂ : β → β → Bool) [StrictLt lt₁] [StrictLt lt₂]
    (ts : List (α × β × γ)) :
    group2Inv lt₁ lt₂ (group2 lt₁ lt₂ ts) ts := by
  have hgen : ∀ (ts' : List (α × β × γ)) (m : List (α × List (β × List γ)))
      (s : List (α × β × γ)), group2Inv lt₁ lt₂ m s →
      group2Inv lt₁ lt₂ (ts'.foldl (group2Step lt₁ lt₂) m) (s ++ ts') := by
    intro ts'
    induction ts' with
    | nil =>
      intro m s h
      simpa using h
    | cons t rest ih =>
      intro m s h
      have hstep := group2Step_inv lt₁ lt₂ m s t h
      have := ih (group2Step lt₁ lt₂ m t) (s ++ [t]) hstep
      simpa using this
  have hbase : group2Inv lt₁ lt₂ ([] : List (α × List (β × List γ))) [] := by
    refine ⟨by simp [sortedKeys], by simp, ?_⟩
    intro a b c
    simp [chainMem, alookup]
  simpa using hgen ts [] [] hbase

/-- Severity of a lint message. Modelled from the spec (§3 data model,
severity ∈ \x7bwarning, error\x7d); the `LintLevel` enum itself lives in
`nexlint/src/lint/mod.rs`, which is not among the provided sources. -/
inductive LintLevel : Type
  | warning
  | error
deriving DecidableEq, Repr

/-- Target-kind descriptor of a message: project-wide, a workspace package
(name and workspace-relative path), or a file. Modelled from
`LintKind::Project` / `LintKind::Package` as used in `guppy.rs`, plus the
file-path kind content rules report under. -/
inductive LintKind : Type
  | project
  | package (name : String) (workspacePath : String)
  | file (path : String)
deriving DecidableEq, Repr

/-- One emitted lint message: target kind, severity, free text. -/
structure LintMessage : Type where
  kind : LintKind
  level : LintLevel
  message : String
deriving DecidableEq, Repr

/-- `guppy::graph::PackagePublish`: where a package may be published.
`Registries []` is `publish = false`. -/
inductive PackagePublish : Type
  | unrestricted
  | registries (rs : List String)
deriving DecidableEq, Repr

/-- `PackagePublish::is_never`: true exactly for the empty registry list. -/
def PackagePublish.is_never : PackagePublish → Bool
  | .registries [] => true
  | _ => false

/-- Where a package comes from: the workspace (with its relative path), an
external registry, or an external git source with its repository URL and
resolved commit hash. -/
inductive PackageSource : Type
  | workspace (path : String)
  | registry (reg : String)
  | git (repository : String) (resolved : String)
deriving DecidableEq, Repr

/-- `guppy::graph::ExternalSource`, restricted to the variants the lints
inspect. -/
inductive ExternalSource : Type
  | registry (reg : String)
  | git (repository : String) (resolved : String)
deriving DecidableEq, Repr

/-- A package node of the guppy `PackageGraph` (`PackageMetadata`),
restricted to the attributes the dependency-graph rules read. -/
structure Package : Type where
  pid : Nat
  name : String
  version : Version
  source : PackageSource
  publish : PackagePublish
deriving DecidableEq, Repr

/-- `source().workspace_path()`: the relative path for workspace members. -/
def Package.workspace_path : Package → Option String
  | { source := .workspace p, .. } => some p
  | _ => none

/-- `in_workspace()`. -/
def Package.in_workspace (p : Package) : Bool := p.workspace_path.isSome

/-- `source().parse_external()`. -/
def Package.parse_external : Package → Option ExternalSource
  | { source := .workspace _, .. } => none
  | { source := .registry r, .. } => some (.registry r)
  | { source := .git r h, .. } => some (.git r h)

/-- A direct dependency link (`PackageLink`): endpoints and the requested
version requirement, kept as its literal text; `"*"` is the `no_version_req`
of `UnpublishedPackagesOnlyUsePathDependencies`. -/
structure PackageLink : Type where
  from_ : Package
  to_ : Package
  version_req : String
deriving DecidableEq, Repr

/-- The resolved package dependency graph. -/
structure PackageGraph : Type where
  packages : List Package
  links : List PackageLink
deriving Repr

/-- `metadata.direct_links()`: outgoing links of `p`. -/
def PackageGraph.direct_links (g : PackageGraph) (p : Package) : List PackageLink :=
  g.links.filter (fun l => l.from_ = p)

/-- `package.reverse_direct_links()`: incoming links of `p`. -/
def PackageGraph.reverse_direct_links (g : PackageGraph) (p : Package) : List PackageLink :=
  g.links.filter (fun l => l.to_ = p)

/-- `BannedDepType` from `guppy.rs` (`Always` / `Direct`). -/
inductive BannedDepType : Type
  | always
  | direct
deriving DecidableEq, Repr

/-- `BannedDepConfig`: message plus policy. -/
structure BannedDepConfig : Type where
  message : String
  type_ : BannedDepType
deriving DecidableEq, Repr

/-- `BannedDepsConfig`: the `HashMap<String, BannedDepConfig>`, modelled as
an association list queried with `alookup` (`banned.get(package.name())`). -/
abbrev BannedDepsConfig := List (String × BannedDepConfig)

/-- The message text of the `Always` branch of `BannedDeps::run`. -/
def bannedAlwaysMsg (name msg : String) : String :=
  "banned project dependency '" ++ name ++ "': " ++ msg

/-- The message text of the `Direct` branch of `BannedDeps::run`. -/
def bannedDirectMsg (name msg : String) : String :=
  "banned direct dependency '" ++ name ++ "': " ++ msg

/-- `filter_ban`: every graph package paired with its banned-config entry,
when one exists for its name. -/
def filter_ban (cfg : BannedDepsConfig) (g : PackageGraph) :
    List (Package × BannedDepConfig) :=
  g.packages.filterMap (fun p => (alookup p.name cfg).map (fun c => (p, c)))

/-- The messages `BannedDeps::run` emits for one `(package, config)` pair:
one project error for `Always`; for `Direct`, one package error per reverse
direct link whose source is a workspace member other than the configured
workspace-hack package. -/
def bannedMsgsFor (hack : Option String) (g : PackageGraph)
    (e : Package × BannedDepConfig) : List LintMessage :=
  match e.2.type_ with
  | .always => [⟨.project, .error, bannedAlwaysMsg e.1.name e.2.message⟩]
  | .direct =>
    (g.reverse_direct_links e.1).filterMap (fun link =>
      match link.from_.workspace_path with
      | some workspacePath =>
        if hack = some link.from_.name then none
        else some ⟨.package link.from_.name workspacePath, .error,
          bannedDirectMsg e.1.name e.2.message⟩
      | none => none)

/-- `BannedDeps::run` (project linter): iterate `filter_ban` and emit. -/
def BannedDeps.run (cfg : BannedDepsConfig) (hack : Option String)
    (g : PackageGraph) : List LintMessage :=
  (filter_ban cfg g).flatMap (bannedMsgsFor hack g)

/-- Rendering of a version in messages. -/
def versionToString (v : Version) : String :=
  toString v.1 ++ "." ++ toString v.2.1 ++ "." ++ toString v.2.2

/-- `DirectDepDupsConfig`: the allow-list of dependency names. -/
structure DirectDepDupsConfig : Type where
  allow : List String
deriving DecidableEq, Repr

/-- The grouped map `direct_deps` of `DirectDepDups::run`: name → version →
dependent workspace package names. The outer `if … in_workspace` models that
`query_workspace().resolve_with_fn` visits exactly the links leaving
workspace members (the callback always returns `false`, so traversal never
goes past the first hop). -/
def DirectDepDups.directDeps (hack : Option String) (g : PackageGraph) :
    List (String × List (Version × List String)) :=
  g.links.foldl (fun dd link =>
    if link.from_.in_workspace then
      if hack = some link.from_.name then dd
      else if link.from_.in_workspace && !link.to_.in_workspace then
        updGroup strLt link.to_.name []
          (fun inner => updGroup vLt link.to_.version []
            (fun pkgs => pkgs ++ [link.from_.name]) inner) dd
      else dd
    else dd) []

/-- Concatenation of message fragments, the model of the `push_str` /
`writeln!` loops that build multi-line messages. -/
def sjoin : List String -> String
  | [] => ""
  | s :: rest => s ++ sjoin rest

/-- One `  * <version> (<dependents>)` line of a duplicate-dependency
message. -/
def dupMsgLine (e : Version × List String) : String :=
  "  * " ++ versionToString e.1 ++ " (" ++ String.intercalate ", " e.2 ++ ")\n"

/-- The full message of one duplicate-dependency error. -/
def dupMsg (name : String) (versions : List (Version × List String)) : String :=
  "duplicate direct dependency '" ++ name ++ "':\n" ++
    sjoin (versions.map dupMsgLine)

/-- `DirectDepDups::run` (project linter). -/
def DirectDepDups.run (cfg : DirectDepDupsConfig) (hack : Option String)
    (g : PackageGraph) : List LintMessage :=
  ((DirectDepDups.directDeps hack g).filter
      (fun e => !cfg.allow.contains e.1)).flatMap
    (fun e => if 1 < e.2.length then [⟨.project, .error, dupMsg e.1 e.2⟩] else [])

/-- The grouped map `direct_deps` of `DirectDuplicateGitDependencies::run`:
repository → resolved hash → (dependent, dependency) name pairs. -/
def DirectDuplicateGitDependencies.directDeps (hack : Option String)
    (g : PackageGraph) : List (String × List (String × List (String × String))) :=
  g.links.foldl (fun dd link =>
    if link.from_.in_workspace then
      if hack = some link.from_.name then dd
      else if link.from_.in_workspace && !link.to_.in_workspace then
        match link.to_.parse_external with
        | some (.git repository resolved) =>
          updGroup strLt repository []
            (fun inner => updGroup strLt resolved []
              (fun pkgs => pkgs ++ [(link.from_.name, link.to_.name)]) inner) dd
        | _ => dd
      else dd
    else dd) []

/-- One `  * <hash>:` block of a duplicate-git-dependency message, with its
`    * <from> -> <to>` lines. -/
def gitHashBlock (e : String × List (String × String)) : String :=
  "  * " ++ e.1 ++ ":\n" ++
    sjoin (e.2.map (fun pr => "    * " ++ pr.1 ++ " -> " ++ pr.2 ++ "\n"))

/-- The full message of one duplicate-git-dependency error. -/
def gitDupMsg (repository : String) (versions : List (String × List (String × String))) :
    String :=
  "duplicate git dependency on repository '" ++ repository ++ "':\n" ++
    sjoin (versions.map gitHashBlock)

/-- `DirectDuplicateGitDependencies::run` (project linter). -/
def DirectDuplicateGitDependencies.run (hack : Option String) (g : PackageGraph) :
    List LintMessage :=
  (DirectDuplicateGitDependencies.directDeps hack g).flatMap
    (fun e => if 1 < e.2.length then [⟨.project, .error, gitDupMsg e.1 e.2⟩] else [])

/-- The message text of `UnpublishedPackagesOnlyUsePathDependencies::run`. -/
def unpublishedMsg (depName reqText : String) : String :=
  "unpublished package specifies a version of first-party dependency '" ++
    depName ++ "' (" ++ reqText ++
    "); unpublished packages should only use path dependencies for first-party packages."

/-- `UnpublishedPackagesOnlyUsePathDependencies::run` (package linter): skip
packages that are not `publish = false`; then error on every direct link
whose version requirement is not `"*"`. -/
def UnpublishedPackagesOnlyUsePathDependencies.run (g : PackageGraph)
    (p : Package) : List LintMessage :=
  if !p.publish.is_never then []
  else
    (g.direct_links p).filterMap (fun l =>
      if l.version_req ≠ "*" then
        some ⟨.package p.name (p.workspace_path.getD ""), .error,
          unpublishedMsg l.to_.name l.version_req⟩
      else none)

/-- `PublishedPackagesDontDependOnUnpublishedPackages::run` (package
linter). -/
def PublishedPackagesDontDependOnUnpublishedPackages.run (g : PackageGraph)
    (p : Package) : List LintMessage :=
  if p.publish.is_never then []
  else
    (g.direct_links p).filterMap (fun l =>
      if l.to_.publish.is_never then
        some ⟨.package p.name (p.workspace_path.getD ""), .error,
          "published package can't depend on unpublished package '" ++
            l.to_.name ++ "'"⟩
      else none)

/-- Split a character list at a separator, keeping empty chunks. -/
def splitOnChar (c : Char) : List Char → List (List Char)
  | [] => [[]]
  | x :: rest =>
    if x = c then [] :: splitOnChar c rest
    else
      match splitOnChar c rest with
      | h :: t => (x :: h) :: t
      | [] => [[x]]

/-- `Utf8Path::components()` on a workspace-relative path: the `/`-separated
non-empty segments. -/
def pathComponents (p : String) : List String :=
  ((splitOnChar '/' p.data).filter (fun l => l ≠ [])).map List.asString

/-- `CratesInCratesDirectory::run` (package linter): inside `crates/`, the
next segment must equal the crate name, and nothing may be nested below it.
The two `path_components.next()` calls after the `crates` match are modelled
by `head?` and `drop 1`. -/
def CratesInCratesDirectory.run (name workspacePath : String) : List LintMessage :=
  match pathComponents workspacePath with
  | "crates" :: rest =>
    (match rest.head? with
     | some directory =>
       if directory = name then []
       else [⟨.package name workspacePath, .error,
         "crates in the `crates/` directory must be in a directory with the same name as the crate"⟩]
     | none => [⟨.package name workspacePath, .error,
       "crates in the `crates/` directory must be in a directory with the same name as the crate"⟩])
    ++ (if rest.drop 1 ≠ [] then
      [⟨.package name workspacePath, .error,
        "crates in the `crates/` directory must be in a flat directory structure, no nesting"⟩]
    else [])
  | _ => []

/-- `CratesOnlyInCratesDirectory::run` (package linter). -/
def CratesOnlyInCratesDirectory.run (name workspacePath : String) : List LintMessage :=
  match pathComponents workspacePath with
  | "crates" :: _ => []
  | _ => [⟨.package name workspacePath, .error,
    "crates are only allowed to be in the `crates/` directory"⟩]

/-- The same graph with every link leaving the named workspace-hack package
removed. -/
def PackageGraph.dropHackLinks (h : String) (g : PackageGraph) : PackageGraph :=
  { g with links := g.links.filter (fun l => l.from_.name ≠ h) }

/-- The reverse direct links of `p` whose source is a workspace member other
than the configured workspace-hack package: the dependents the `Direct`
policy reports. -/
def bannedDependents (hack : Option String) (g : PackageGraph) (p : Package) :
    List PackageLink :=
  (g.reverse_direct_links p).filter
    (fun l => l.from_.in_workspace && decide (hack ≠ some l.from_.name))

theorem bannedFilterMap_eq (hack : Option String) (pName msg : String)
    (ls : List PackageLink) :
    ls.filterMap (fun link =>
        match link.from_.workspace_path with
        | some workspacePath =>
          if hack = some link.from_.name then none
          else some (LintMessage.mk (.package link.from_.name workspacePath) .error
            (bannedDirectMsg pName msg))
        | none => none) =
      (ls.filter (fun l => l.from_.in_workspace && decide (hack ≠ some l.from_.name))).map
        (fun l => LintMessage.mk (.package l.from_.name (l.from_.workspace_path.getD ""))
          .error (bannedDirectMsg pName msg)) := by
  induction ls with
  | nil => rfl
  | cons l ls ih =>
    rw [List.filterMap_cons, List.filter_cons]
    cases hwp : l.from_.workspace_path with
    | none =>
      have hiw : l.from_.in_workspace = false := by
        rw [Package.in_workspace, hwp]
        rfl
      simp only [hwp, hiw, Bool.false_and, Bool.false_eq_true, if_false]
      exact ih
    | some wp =>
      have hiw : l.from_.in_workspace = true := by
        rw [Package.in_workspace, hwp]
        rfl
      by_cases hh : hack = some l.from_.name
      · have hcond : (l.from_.in_workspace && decide (hack ≠ some l.from_.name)) = false := by
          simp [hh]
        simp only [hwp]
        rw [if_pos hh, hcond]
        simp only [Bool.false_eq_true, if_false]
        exact ih
      · have hcond : (l.from_.in_workspace && decide (hack ≠ some l.from_.name)) = true := by
          simp [hiw, hh]
        simp only [hwp]
        rw [if_neg hh, hcond]
        simp only [if_pos rfl, if_true, List.map_cons, hwp, Option.getD_some]
        rw [ih]

theorem bannedMsgsFor_direct_eq (hack : Option String) (g : PackageGraph)
    (p : Package) (msg : String) :
    bannedMsgsFor hack g (p, ⟨msg, .direct⟩) =
      (bannedDependents hack g p).map (fun l =>
        ⟨.package l.from_.name (l.from_.workspace_path.getD ""), .error,
          bannedDirectMsg p.name msg⟩) := by
  rw [bannedDependents]
  exact bannedFilterMap_eq hack p.name msg (g.reverse_direct_links p)

/-- C1: for every banned-config entry with policy `Always` and every graph
package whose name matches it, `BannedDeps::run` emits messages package by
package (`run` is the concatenation of the per-package contributions of
`filter_ban`), the matching package's contribution is exactly one
project-level error-level message whose text contains (here: ends with) the
configured message, and that contribution is the same whatever the links of
the graph are — in particular regardless of how many packages depend on the
banned package. -/
theorem BannedDeps.always_policy (cfg : BannedDepsConfig) (hack : Option String)
    (g : PackageGraph) (name msg : String)
    (h : alookup name cfg = some ⟨msg, .always⟩) :
    BannedDeps.run cfg hack g = (filter_ban cfg g).flatMap (bannedMsgsFor hack g) ∧
    ∀ p ∈ g.packages, p.name = name →
      (p, (⟨msg, .always⟩ : BannedDepConfig)) ∈ filter_ban cfg g ∧
      bannedMsgsFor hack g (p, ⟨msg, .always⟩) =
        [⟨.project, .error, bannedAlwaysMsg name msg⟩] ∧
      (∃ pre, bannedAlwaysMsg name msg = pre ++ msg) ∧
      ∀ links', bannedMsgsFor hack ⟨g.packages, links'⟩ (p, ⟨msg, .always⟩) =
        [⟨.project, .error, bannedAlwaysMsg name msg⟩] := by
  refine ⟨rfl, ?_⟩
  intro p hp hname
  refine ⟨?_, ?_, ?_, ?_⟩
  · rw [filter_ban]
    rw [List.mem_filterMap]
    refine ⟨p, hp, ?_⟩
    rw [hname, h]
    rfl
  · rw [bannedMsgsFor]
    simp only [hname]
  · exact ⟨"banned project dependency '" ++ name ++ "': ", rfl⟩
  · intro links'
    rw [bannedMsgsFor]
    simp only [hname]

def c1Cfg : BannedDepsConfig := [("serde", ⟨"use serde2 instead", .always⟩)]

def c1Serde : Package := ⟨7, "serde", (1, 0, 0), .registry "crates-io", .unrestricted⟩

def c1App : Package := ⟨1, "app", (0, 1, 0), .workspace "crates/app", .registries []⟩

def c1Graph : PackageGraph :=
  ⟨[c1App, c1Serde], [⟨c1App, c1Serde, "1.0"⟩]⟩

/-- Witness for C1 at a concrete configuration and graph. -/
theorem BannedDeps.always_policy_witness :
    alookup "serde" c1Cfg = some ⟨"use serde2 instead", .always⟩ ∧
    (BannedDeps.run c1Cfg none c1Graph =
        (filter_ban c1Cfg c1Graph).flatMap (bannedMsgsFor none c1Graph) ∧
      ∀ p ∈ c1Graph.packages, p.name = "serde" →
        (p, (⟨"use serde2 instead", .always⟩ : BannedDepConfig)) ∈ filter_ban c1Cfg c1Graph ∧
        bannedMsgsFor none c1Graph (p, ⟨"use serde2 instead", .always⟩) =
          [⟨.project, .error, bannedAlwaysMsg "serde" "use serde2 instead"⟩] ∧
        (∃ pre, bannedAlwaysMsg "serde" "use serde2 instead" = pre ++ "use serde2 instead") ∧
        ∀ links', bannedMsgsFor none ⟨c1Graph.packages, links'⟩
            (p, ⟨"use serde2 instead", .always⟩) =
          [⟨.project, .error, bannedAlwaysMsg "serde" "use serde2 instead"⟩]) :=
  ⟨by decide, BannedDeps.always_policy c1Cfg none c1Graph "serde" "use serde2 instead" (by decide)⟩

/-- C2: for every banned-config entry with policy `Direct` and every graph
package whose name matches it, the package's contribution to
`BannedDeps::run` is exactly one package-level error-level message per
reverse direct dependent that is a workspace member and is not the
configured workspace-hack package (K dependents, K messages, one per
dependent — the dependents are pairwise distinct when the graph has at most
one link per ordered package pair), each message's text containing (ending
with) the configured message; links from non-workspace dependents contribute
no message. -/
theorem BannedDeps.direct_policy (cfg : BannedDepsConfig) (hack : Option String)
    (g : PackageGraph) (name msg : String)
    (h : alookup name cfg = some ⟨msg, .direct⟩)
    (hnd : g.links.Pairwise (fun l₁ l₂ => ¬(l₁.from_ = l₂.from_ ∧ l₁.to_ = l₂.to_))) :
    BannedDeps.run cfg hack g = (filter_ban cfg g).flatMap (bannedMsgsFor hack g) ∧
    ∀ p ∈ g.packages, p.name = name →
      (p, (⟨msg, .direct⟩ : BannedDepConfig)) ∈ filter_ban cfg g ∧
      bannedMsgsFor hack g (p, ⟨msg, .direct⟩) =
        (bannedDependents hack g p).map (fun l =>
          ⟨.package l.from_.name (l.from_.workspace_path.getD ""), .error,
            bannedDirectMsg name msg⟩) ∧
      (bannedMsgsFor hack g (p, ⟨msg, .direct⟩)).length =
        (bannedDependents hack g p).length ∧
      ((bannedDependents hack g p).map (fun l => l.from_)).Nodup ∧
      (∀ l ∈ bannedDependents hack g p,
        l.from_.in_workspace = true ∧ hack ≠ some l.from_.name ∧ l.to_ = p) ∧
      (∃ pre, bannedDirectMsg name msg = pre ++ msg) := by
  refine ⟨rfl, ?_⟩
  intro p hp hname
  have hdepmem : ∀ l ∈ bannedDependents hack g p,
      l.from_.in_workspace = true ∧ hack ≠ some l.from_.name ∧ l.to_ = p := by
    intro l hl
    rw [bannedDependents, List.mem_filter] at hl
    obtain ⟨hl₁, hl₂⟩ := hl
    rw [Bool.and_eq_true] at hl₂
    obtain ⟨hw, hh⟩ := hl₂
    rw [PackageGraph.reverse_direct_links, List.mem_filter] at hl₁
    refine ⟨hw, by simpa using hh, by simpa using hl₁.2⟩
  refine ⟨?_, ?_, ?_, ?_, hdepmem, ?_⟩
  · rw [filter_ban]
    rw [List.mem_filterMap]
    refine ⟨p, hp, ?_⟩
    rw [hname, h]
    rfl
  · rw [← hname]
    exact bannedMsgsFor_direct_eq hack g p msg
  · rw [bannedMsgsFor_direct_eq hack g p msg, List.length_map]
  · have hsub : (bannedDependents hack g p).Sublist g.links := by
      rw [bannedDependents, PackageGraph.reverse_direct_links]
      exact (List.filter_sublist _).trans (List.filter_sublist _)
    have hpw : (bannedDependents hack g p).Pairwise
        (fun l₁ l₂ => ¬(l₁.from_ = l₂.from_ ∧ l₁.to_ = l₂.to_)) :=
      hnd.sublist hsub
    have hpw' : (bannedDependents hack g p).Pairwise
        (fun l₁ l₂ => l₁.from_ ≠ l₂.from_) := by
      apply List.Pairwise.imp_of_mem ?_ hpw
      intro l₁ l₂ h₁ h₂ hne hfe
      exact hne ⟨hfe, ((hdepmem l₁ h₁).2.2).trans ((hdepmem l₂ h₂).2.2).symm⟩
    exact List.Pairwise.map _ (fun a b hab => hab) hpw'
  · exact ⟨"banned direct dependency '" ++ name ++ "': ", rfl⟩

def c2Cfg : BannedDepsConfig := [("openssl", ⟨"use rustls instead", .direct⟩)]

def c2Ssl : Package := ⟨7, "openssl", (0, 10, 0), .registry "crates-io", .unrestricted⟩

def c2App : Package := ⟨1, "app", (0, 1, 0), .workspace "crates/app", .registries []⟩

def c2Hack : Package := ⟨2, "wh", (0, 1, 0), .workspace "crates/wh", .registries []⟩

def c2Graph : PackageGraph :=
  ⟨[c2App, c2Hack, c2Ssl], [⟨c2App, c2Ssl, "0.10"⟩, ⟨c2Hack, c2Ssl, "0.10"⟩]⟩

/-- Witness for C2 at a concrete configuration and graph (one workspace
dependent plus the workspace-hack package). -/
theorem BannedDeps.direct_policy_witness :
    alookup "openssl" c2Cfg = some ⟨"use rustls instead", .direct⟩ ∧
    c2Graph.links.Pairwise (fun l₁ l₂ => ¬(l₁.from_ = l₂.from_ ∧ l₁.to_ = l₂.to_)) ∧
    (BannedDeps.run c2Cfg (some "wh") c2Graph =
        (filter_ban c2Cfg c2Graph).flatMap (bannedMsgsFor (some "wh") c2Graph) ∧
      ∀ p ∈ c2Graph.packages, p.name = "openssl" →
        (p, (⟨"use rustls instead", .direct⟩ : BannedDepConfig)) ∈ filter_ban c2Cfg c2Graph ∧
        bannedMsgsFor (some "wh") c2Graph (p, ⟨"use rustls instead", .direct⟩) =
          (bannedDependents (some "wh") c2Graph p).map (fun l =>
            ⟨.package l.from_.name (l.from_.workspace_path.getD ""), .error,
              bannedDirectMsg "openssl" "use rustls instead"⟩) ∧
        (bannedMsgsFor (some "wh") c2Graph (p, ⟨"use rustls instead", .direct⟩)).length =
          (bannedDependents (some "wh") c2Graph p).length ∧
        ((bannedDependents (some "wh") c2Graph p).map (fun l => l.from_)).Nodup ∧
        (∀ l ∈ bannedDependents (some "wh") c2Graph p,
          l.from_.in_workspace = true ∧ (some "wh" : Option String) ≠ some l.from_.name ∧
            l.to_ = p) ∧
        (∃ pre, bannedDirectMsg "openssl" "use rustls instead" = pre ++ "use rustls instead")) :=
  ⟨by decide, by decide,
    BannedDeps.direct_policy c2Cfg (some "wh") c2Graph "openssl" "use rustls instead"
      (by decide) (by decide)⟩

theorem sjoin_decomp {α : Type} (f : α → String) (l : List α) (x : α) (hx : x ∈ l) :
    ∃ pre post, sjoin (l.map f) = pre ++ f x ++ post := by
  induction l with
  | nil => cases hx
  | cons a rest ih =>
    rw [List.mem_cons] at hx
    rcases hx with hx | hx
    · refine ⟨"", sjoin (rest.map f), ?_⟩
      rw [List.map_cons, sjoin, hx, String.empty_append]
    · obtain ⟨pre, post, hp⟩ := ih hx
      refine ⟨f a ++ pre, post, ?_⟩
      rw [List.map_cons, sjoin, hp]
      rw [String.append_assoc, String.append_assoc, String.append_assoc]

/-- The links `DirectDepDups::run` records: source in the workspace and not
the workspace-hack package, target outside the workspace. -/
def ddQualifies (hack : Option String) (l : PackageLink) : Bool :=
  l.from_.in_workspace && decide (hack ≠ some l.from_.name) && !l.to_.in_workspace

/-- The items `DirectDepDups::run` groups: (name, version, dependent name)
per recorded link, in link order. -/
def ddItems (hack : Option String) (g : PackageGraph) :
    List (String × Version × String) :=
  (g.links.filter (ddQualifies hack)).map
    (fun l => (l.to_.name, l.to_.version, l.from_.name))

theorem foldl_filter_map_step {α β γ : Type} (p : α → Bool) (f : α → β)
    (step : γ → β → γ) (big : γ → α → γ)
    (hbig : ∀ acc a, big acc a = if p a then step acc (f a) else acc) :
    ∀ (xs : List α) (acc : γ), xs.foldl big acc = ((xs.filter p).map f).foldl step acc := by
  intro xs
  induction xs with
  | nil => intro acc; rfl
  | cons x xs ih =>
    intro acc
    rw [List.foldl_cons, hbig, List.filter_cons]
    cases hp : p x with
    | false =>
      simp only [Bool.false_eq_true, if_false]
      exact ih acc
    | true =>
      simp only [if_true, List.map_cons, List.foldl_cons]
      exact ih (step acc (f x))

theorem DirectDepDups.directDeps_eq_group2 (hack : Option String) (g : PackageGraph) :
    DirectDepDups.directDeps hack g = group2 strLt vLt (ddItems hack g) := by
  rw [DirectDepDups.directDeps, group2, ddItems]
  apply foldl_filter_map_step (ddQualifies hack)
    (fun l => (l.to_.name, l.to_.version, l.from_.name)) (group2Step strLt vLt)
  intro acc l
  rw [ddQualifies]
  by_cases hiw : l.from_.in_workspace = true
  · by_cases hh : hack = some l.from_.name
    · simp [hiw, hh, group2Step]
    · by_cases hto : l.to_.in_workspace = true
      · simp [hiw, hh, hto]
      · simp only [Bool.not_eq_true] at hto
        simp [hiw, hh, hto, group2Step]
  · simp only [Bool.not_eq_true] at hiw
    simp [hiw]

/-- C3: `DirectDepDups::run` emits its errors by iterating the grouped map
`direct_deps` in ascending name order, skipping allow-listed names and names
with at most one distinct version, and emitting exactly one project-level
error-level message per remaining name (names are pairwise distinct because
the map keys strictly ascend); the grouped map holds exactly the direct
third-party dependencies of workspace members (workspace-hack excluded);
within a name the versions strictly ascend; and each emitted message carries
one `  * <version> (<dependents>)` line for every recorded version of that
name. -/
theorem DirectDepDups.version_dup_policy (cfg : DirectDepDupsConfig) (hack : Option String)
    (g : PackageGraph) :
    DirectDepDups.run cfg hack g =
      ((DirectDepDups.directDeps hack g).filter
          (fun e => !cfg.allow.contains e.1)).flatMap
        (fun e => if 1 < e.2.length then [⟨.project, .error, dupMsg e.1 e.2⟩] else []) ∧
    ((DirectDepDups.directDeps hack g).map Prod.fst).Pairwise
      (fun a b => strLt a b = true) ∧
    (∀ e ∈ DirectDepDups.directDeps hack g,
      (e.2.map Prod.fst).Pairwise (fun a b => vLt a b = true)) ∧
    (∀ name ver dep,
      (∃ vs pkgs, alookup name (DirectDepDups.directDeps hack g) = some vs ∧
        alookup ver vs = some pkgs ∧ dep ∈ pkgs) ↔
      ∃ l ∈ g.links, ddQualifies hack l = true ∧ l.to_.name = name ∧
        l.to_.version = ver ∧ l.from_.name = dep) ∧
    (∀ e ∈ DirectDepDups.directDeps hack g, ∀ vp ∈ e.2,
      ∃ pre post, dupMsg e.1 e.2 = pre ++ dupMsgLine vp ++ post) := by
  obtain ⟨hsort, hinner, hchain⟩ := group2_inv strLt vLt (ddItems hack g)
  rw [← DirectDepDups.directDeps_eq_group2 hack g] at hsort hinner hchain
  refine ⟨rfl, ?_, ?_, ?_, ?_⟩
  · exact List.pairwise_map.mpr hsort
  · intro e he
    exact List.pairwise_map.mpr (hinner e he)
  · intro name ver dep
    rw [show (∃ vs pkgs, alookup name (DirectDepDups.directDeps hack g) = some vs ∧
        alookup ver vs = some pkgs ∧ dep ∈ pkgs) =
        chainMem (DirectDepDups.directDeps hack g) name ver dep from rfl]
    rw [hchain name ver dep]
    rw [ddItems]
    constructor
    · intro hmem
      rw [List.mem_map] at hmem
      obtain ⟨l, hl, hleq⟩ := hmem
      rw [List.mem_filter] at hl
      refine ⟨l, hl.1, hl.2, ?_, ?_, ?_⟩
      · exact congrArg (fun t => t.1) hleq
      · exact congrArg (fun t => t.2.1) hleq
      · exact congrArg (fun t => t.2.2) hleq
    · rintro ⟨l, hl, hq, h₁, h₂, h₃⟩
      rw [List.mem_map]
      refine ⟨l, List.mem_filter.mpr ⟨hl, hq⟩, ?_⟩
      rw [h₁, h₂, h₃]
  · intro e _he vp hvp
    obtain ⟨pre, post, hp⟩ := sjoin_decomp dupMsgLine e.2 vp hvp
    refine ⟨("duplicate direct dependency '" ++ e.1 ++ "':\n") ++ pre, post, ?_⟩
    rw [dupMsg, hp]
    simp only [String.append_assoc]

def c3App : Package := ⟨1, "app", (0, 1, 0), .workspace "crates/app", .registries []⟩

def c3Lib : Package := ⟨2, "lib", (0, 1, 0), .workspace "crates/lib", .registries []⟩

def c3SerdeA : Package := ⟨7, "serde", (1, 0, 0), .registry "crates-io", .unrestricted⟩

def c3SerdeB : Package := ⟨8, "serde", (1, 2, 0), .registry "crates-io", .unrestricted⟩

def c3Graph : PackageGraph :=
  ⟨[c3App, c3Lib, c3SerdeA, c3SerdeB],
    [⟨c3App, c3SerdeA, "1.0"⟩, ⟨c3Lib, c3SerdeB, "1.2"⟩]⟩

/-- Witness for C3: a workspace with two distinct direct versions of `serde`
produces exactly one error naming both versions and both dependents; with
`serde` allow-listed it produces none. -/
theorem DirectDepDups.version_dup_policy_witness :
    DirectDepDups.run ⟨[]⟩ none c3Graph =
      [⟨.project, .error, dupMsg "serde" [((1, 0, 0), ["app"]), ((1, 2, 0), ["lib"])]⟩] ∧
    DirectDepDups.run ⟨["serde"]⟩ none c3Graph = [] ∧
    (DirectDepDups.run ⟨[]⟩ none c3Graph =
      ((DirectDepDups.directDeps none c3Graph).filter
          (fun e => !(⟨[]⟩ : DirectDepDupsConfig).allow.contains e.1)).flatMap
        (fun e => if 1 < e.2.length then [⟨.project, .error, dupMsg e.1 e.2⟩] else []) ∧
    ((DirectDepDups.directDeps none c3Graph).map Prod.fst).Pairwise
      (fun a b => strLt a b = true) ∧
    (∀ e ∈ DirectDepDups.directDeps none c3Graph,
      (e.2.map Prod.fst).Pairwise (fun a b => vLt a b = true)) ∧
    (∀ name ver dep,
      (∃ vs pkgs, alookup name (DirectDepDups.directDeps none c3Graph) = some vs ∧
        alookup ver vs = some pkgs ∧ dep ∈ pkgs) ↔
      ∃ l ∈ c3Graph.links, ddQualifies none l = true ∧ l.to_.name = name ∧
        l.to_.version = ver ∧ l.from_.name = dep) ∧
    (∀ e ∈ DirectDepDups.directDeps none c3Graph, ∀ vp ∈ e.2,
      ∃ pre post, dupMsg e.1 e.2 = pre ++ dupMsgLine vp ++ post)) :=
  ⟨by decide, by decide, DirectDepDups.version_dup_policy ⟨[]⟩ none c3Graph⟩

/-- The items `DirectDuplicateGitDependencies::run` groups:
(repository, resolved hash, (dependent, dependency)) per qualifying
git-resolved link, in link order. -/
def gitItems (hack : Option String) (g : PackageGraph) :
    List (String × String × String × String) :=
  g.links.filterMap (fun l =>
    if l.from_.in_workspace && decide (hack ≠ some l.from_.name) && !l.to_.in_workspace then
      match l.to_.parse_external with
      | some (.git repository resolved) =>
        some (repository, resolved, (l.from_.name, l.to_.name))
      | _ => none
    else none)

theorem foldl_filterMap_step {α β γ : Type} (f : α → Option β)
    (step : γ → β → γ) (big : γ → α → γ)
    (hbig : ∀ acc a, big acc a = match f a with | some b => step acc b | none => acc) :
    ∀ (xs : List α) (acc : γ), xs.foldl big acc = (xs.filterMap f).foldl step acc := by
  intro xs
  induction xs with
  | nil => intro acc; rfl
  | cons x xs ih =>
    intro acc
    rw [List.foldl_cons, hbig, List.filterMap_cons]
    cases hf : f x with
    | none => exact ih acc
    | some b =>
      rw [List.foldl_cons]
      exact ih (step acc b)

theorem DirectDuplicateGitDependencies.gitDirectDeps_eq_group2 (hack : Option String)
    (g : PackageGraph) :
    DirectDuplicateGitDependencies.directDeps hack g =
      group2 strLt strLt (gitItems hack g) := by
  rw [DirectDuplicateGitDependencies.directDeps, group2, gitItems]
  apply foldl_filterMap_step
  intro acc l
  by_cases hiw : l.from_.in_workspace = true
  · by_cases hh : hack = some l.from_.name
    · simp [hiw, hh]
    · by_cases hto : l.to_.in_workspace = true
      · simp [hiw, hh, hto]
      · simp only [Bool.not_eq_true] at hto
        cases hpe : l.to_.parse_external with
        | none => simp [hiw, hh, hto, hpe]
        | some es =>
          cases es with
          | registry r => simp [hiw, hh, hto, hpe]
          | git repository resolved => simp [hiw, hh, hto, hpe, group2Step]
  · simp only [Bool.not_eq_true] at hiw
    simp [hiw]

/-- C4: `DirectDuplicateGitDependencies::run` iterates the grouped map
repository → resolved hash → (dependent, dependency) pairs in ascending
repository order and emits exactly one project-level error-level message per
repository resolved to more than one distinct commit hash (repositories are
pairwise distinct since the keys strictly ascend); a repository whose edges
all resolve to one hash, or to none, produces nothing; the map holds exactly
the direct third-party git dependencies of workspace members
(workspace-hack excluded); hashes strictly ascend within a repository; and
each message carries one `  * <hash>:` block for every recorded hash. -/
theorem DirectDuplicateGitDependencies.git_dup_policy (hack : Option String)
    (g : PackageGraph) :
    DirectDuplicateGitDependencies.run hack g =
      (DirectDuplicateGitDependencies.directDeps hack g).flatMap
        (fun e => if 1 < e.2.length then [⟨.project, .error, gitDupMsg e.1 e.2⟩] else []) ∧
    ((DirectDuplicateGitDependencies.directDeps hack g).map Prod.fst).Pairwise
      (fun a b => strLt a b = true) ∧
    (∀ e ∈ DirectDuplicateGitDependencies.directDeps hack g,
      (e.2.map Prod.fst).Pairwise (fun a b => strLt a b = true)) ∧
    (∀ repository resolved dep dependency,
      (∃ vs pkgs,
        alookup repository (DirectDuplicateGitDependencies.directDeps hack g) = some vs ∧
        alookup resolved vs = some pkgs ∧ (dep, dependency) ∈ pkgs) ↔
      ∃ l ∈ g.links,
        (l.from_.in_workspace && decide (hack ≠ some l.from_.name) &&
          !l.to_.in_workspace) = true ∧
        l.to_.parse_external = some (.git repository resolved) ∧
        l.from_.name = dep ∧ l.to_.name = dependency) ∧
    (∀ e ∈ DirectDuplicateGitDependencies.directDeps hack g, ∀ hb ∈ e.2,
      ∃ pre post, gitDupMsg e.1 e.2 = pre ++ gitHashBlock hb ++ post) := by
  obtain ⟨hsort, hinner, hchain⟩ := group2_inv strLt strLt (gitItems hack g)
  rw [← DirectDuplicateGitDependencies.gitDirectDeps_eq_group2 hack g] at hsort hinner hchain
  refine ⟨rfl, ?_, ?_, ?_, ?_⟩
  · exact List.pairwise_map.mpr hsort
  · intro e he
    exact List.pairwise_map.mpr (hinner e he)
  · intro repository resolved dep dependency
    rw [show (∃ vs pkgs,
        alookup repository (DirectDuplicateGitDependencies.directDeps hack g) = some vs ∧
        alookup resolved vs = some pkgs ∧ (dep, dependency) ∈ pkgs) =
        chainMem (DirectDuplicateGitDependencies.directDeps hack g)
          repository resolved (dep, dependency) from rfl]
    rw [hchain repository resolved (dep, dependency)]
    rw [gitItems]
    constructor
    · intro hmem
      rw [List.mem_filterMap] at hmem
      obtain ⟨l, hl, hleq⟩ := hmem
      by_cases hcond : (l.from_.in_workspace && decide (hack ≠ some l.from_.name) &&
          !l.to_.in_workspace) = true
      · rw [if_pos hcond] at hleq
        cases hpe : l.to_.parse_external with
        | none => rw [hpe] at hleq; cases hleq
        | some es =>
          cases es with
          | registry r => rw [hpe] at hleq; cases hleq
          | git repo₀ res₀ =>
            rw [hpe] at hleq
            injection hleq with hleq
            have e₁ : repo₀ = repository := congrArg (fun t => t.1) hleq
            have e₂ : res₀ = resolved := congrArg (fun t => t.2.1) hleq
            refine ⟨l, hl, hcond, ?_, ?_, ?_⟩
            · rw [hpe, e₁, e₂]
            · exact congrArg (fun t => t.2.2.1) hleq
            · exact congrArg (fun t => t.2.2.2) hleq
      · rw [if_neg hcond] at hleq
        cases hleq
    · rintro ⟨l, hl, hcond, hpe, h₁, h₂⟩
      rw [List.mem_filterMap]
      refine ⟨l, hl, ?_⟩
      rw [if_pos hcond, hpe, h₁, h₂]
  · intro e _he hb hhb
    obtain ⟨pre, post, hp⟩ := sjoin_decomp gitHashBlock e.2 hb hhb
    refine ⟨("duplicate git dependency on repository '" ++ e.1 ++ "':\n") ++ pre, post, ?_⟩
    rw [gitDupMsg, hp]
    simp only [String.append_assoc]

def c4App : Package := ⟨1, "app", (0, 1, 0), .workspace "crates/app", .registries []⟩

def c4Lib : Package := ⟨2, "lib", (0, 1, 0), .workspace "crates/lib", .registries []⟩

def c4GitA : Package := ⟨7, "dep", (1, 0, 0), .git "https://example.com/dep" "aaaa", .unrestricted⟩

def c4GitB : Package := ⟨8, "dep", (1, 0, 0), .git "https://example.com/dep" "bbbb", .unrestricted⟩

def c4Graph : PackageGraph :=
  ⟨[c4App, c4Lib, c4GitA, c4GitB],
    [⟨c4App, c4GitA, "*"⟩, ⟨c4Lib, c4GitB, "*"⟩]⟩

def c4GraphSame : PackageGraph :=
  ⟨[c4App, c4Lib, c4GitA],
    [⟨c4App, c4GitA, "*"⟩, ⟨c4Lib, c4GitA, "*"⟩]⟩

/-- Witness for C4: two workspace packages pinning the same repository at two
different commits produce exactly one error enumerating both hashes; at the
same commit they produce none. -/
theorem DirectDuplicateGitDependencies.git_dup_policy_witness :
    DirectDuplicateGitDependencies.run none c4Graph =
      [⟨.project, .error, gitDupMsg "https://example.com/dep"
        [("aaaa", [("app", "dep")]), ("bbbb", [("lib", "dep")])]⟩] ∧
    DirectDuplicateGitDependencies.run none c4GraphSame = [] ∧
    (DirectDuplicateGitDependencies.run none c4Graph =
      (DirectDuplicateGitDependencies.directDeps none c4Graph).flatMap
        (fun e => if 1 < e.2.length then [⟨.project, .error, gitDupMsg e.1 e.2⟩] else []) ∧
    ((DirectDuplicateGitDependencies.directDeps none c4Graph).map Prod.fst).Pairwise
      (fun a b => strLt a b = true) ∧
    (∀ e ∈ DirectDuplicateGitDependencies.directDeps none c4Graph,
      (e.2.map Prod.fst).Pairwise (fun a b => strLt a b = true)) ∧
    (∀ repository resolved dep dependency,
      (∃ vs pkgs,
        alookup repository (DirectDuplicateGitDependencies.directDeps none c4Graph) = some vs ∧
        alookup resolved vs = some pkgs ∧ (dep, dependency) ∈ pkgs) ↔
      ∃ l ∈ c4Graph.links,
        (l.from_.in_workspace && decide ((none : Option String) ≠ some l.from_.name) &&
          !l.to_.in_workspace) = true ∧
        l.to_.parse_external = some (.git repository resolved) ∧
        l.from_.name = dep ∧ l.to_.name = dependency) ∧
    (∀ e ∈ DirectDuplicateGitDependencies.directDeps none c4Graph, ∀ hb ∈ e.2,
      ∃ pre post, gitDupMsg e.1 e.2 = pre ++ gitHashBlock hb ++ post)) :=
  ⟨by decide, by decide, DirectDuplicateGitDependencies.git_dup_policy none c4Graph⟩

def c5Foo : Package := ⟨1, "foo", (0, 1, 0), .workspace "crates/foo", .registries []⟩

def c5Serde : Package := ⟨7, "serde", (1, 0, 0), .registry "crates-io", .unrestricted⟩

def c5Graph : PackageGraph := ⟨[c5Foo, c5Serde], [⟨c5Foo, c5Serde, "1.0"⟩]⟩

/-- C5 (failing input): `UnpublishedPackagesOnlyUsePathDependencies::run`
iterates all `direct_links()` without checking `to().in_workspace()`, so an
unpublished workspace package `foo` whose only direct dependency is the
non-workspace (registry) package `serde` with requirement `"1.0"` gets one
error — calling `serde` a "first-party dependency" — although the rule's own
documentation and the spec restrict the check to workspace-internal
dependencies. -/
theorem UnpublishedPackagesOnlyUsePathDependencies.nonworkspace_dep_flagged :
    c5Serde.in_workspace = false ∧
    c5Foo.publish.is_never = true ∧
    UnpublishedPackagesOnlyUsePathDependencies.run c5Graph c5Foo =
      [⟨.package "foo" "crates/foo", .error, unpublishedMsg "serde" "1.0"⟩] := by
  refine ⟨rfl, rfl, ?_⟩
  decide

def c6Hack : Package := ⟨2, "wh", (0, 1, 0), .workspace "crates/wh", .registries []⟩

def c6Serde : Package := ⟨7, "serde", (1, 0, 0), .registry "crates-io", .unrestricted⟩

def c6Graph : PackageGraph := ⟨[c6Hack, c6Serde], [⟨c6Hack, c6Serde, "1.0"⟩]⟩

/-- C6 (counterexample): `UnpublishedPackagesOnlyUsePathDependencies::run`
has no workspace-hack exclusion, so on a graph whose only link leaves the
workspace-hack package `wh` its output changes when workspace-hack-originated
edges are removed — the claimed invariance fails for this rule of the listed
set. -/
theorem UnpublishedPackagesOnlyUsePathDependencies.hack_edges_counted :
    ¬ (UnpublishedPackagesOnlyUsePathDependencies.run c6Graph c6Hack =
      UnpublishedPackagesOnlyUsePathDependencies.run
        (PackageGraph.dropHackLinks "wh" c6Graph) c6Hack) := by
  decide

theorem filter_filter_of_imp {α : Type} (p q : α → Bool)
    (hpq : ∀ a, q a = true → p a = true) :
    ∀ l : List α, (l.filter p).filter q = l.filter q := by
  intro l
  induction l with
  | nil => rfl
  | cons a l ih =>
    rw [List.filter_cons]
    cases hp : p a with
    | true =>
      simp only [if_true]
      rw [List.filter_cons, List.filter_cons, ih]
    | false =>
      have hq : q a = false := by
        cases hqa : q a with
        | false => rfl
        | true => rw [hpq a hqa] at hp; cases hp
      simp only [Bool.false_eq_true, if_false]
      rw [List.filter_cons, hq, ih]
      simp only [Bool.false_eq_true, if_false]

theorem filterMap_filter_of_none {α β : Type} (f : α → Option β) (p : α → Bool)
    (hf : ∀ a, p a = false → f a = none) :
    ∀ l : List α, (l.filter p).filterMap f = l.filterMap f := by
  intro l
  induction l with
  | nil => rfl
  | cons a l ih =>
    rw [List.filter_cons, List.filterMap_cons]
    cases hp : p a with
    | true =>
      simp only [if_true]
      rw [List.filterMap_cons, ih]
    | false =>
      simp only [Bool.false_eq_true, if_false]
      rw [hf a hp, ih]

theorem bannedDependents_dropHack (h : String) (g : PackageGraph) (p : Package) :
    bannedDependents (some h) (g.dropHackLinks h) p = bannedDependents (some h) g p := by
  rw [bannedDependents, bannedDependents, PackageGraph.reverse_direct_links,
    PackageGraph.reverse_direct_links, PackageGraph.dropHackLinks]
  simp only
  have himp : ∀ l : PackageLink,
      (l.from_.in_workspace && decide ((some h : Option String) ≠ some l.from_.name)) = true →
        decide (l.from_.name ≠ h) = true := by
    intro l hl
    rw [Bool.and_eq_true] at hl
    have h2 := hl.2
    simp only [decide_eq_true_eq] at h2 ⊢
    intro he
    exact h2 (by rw [he])
  rw [List.filter_comm, filter_filter_of_imp _ _ himp, List.filter_comm]

/-- C6 (amended): the three project-scope graph rules are insensitive to
edges leaving the configured workspace-hack package: each produces the same
output on `g` and on `g` with all links whose source is named `h` removed,
when the workspace-hack name `h` is configured. (The two package-scope
publish rules are not part of this invariant; see the counterexample.) -/
theorem projectRules_ignore_hack_edges (cfg : BannedDepsConfig)
    (ddcfg : DirectDepDupsConfig) (h : String) (g : PackageGraph) :
    BannedDeps.run cfg (some h) (g.dropHackLinks h) = BannedDeps.run cfg (some h) g ∧
    DirectDepDups.run ddcfg (some h) (g.dropHackLinks h) =
      DirectDepDups.run ddcfg (some h) g ∧
    DirectDuplicateGitDependencies.run (some h) (g.dropHackLinks h) =
      DirectDuplicateGitDependencies.run (some h) g := by
  refine ⟨?_, ?_, ?_⟩
  · rw [BannedDeps.run, BannedDeps.run]
    have hfb : filter_ban cfg (g.dropHackLinks h) = filter_ban cfg g := rfl
    rw [hfb]
    have hmsgs : bannedMsgsFor (some h) (g.dropHackLinks h) = bannedMsgsFor (some h) g := by
      funext e
      obtain ⟨p, msg, ty⟩ := e
      cases ty with
      | always => rfl
      | direct =>
        rw [bannedMsgsFor_direct_eq, bannedMsgsFor_direct_eq, bannedDependents_dropHack]
    rw [hmsgs]
  · have hdd : DirectDepDups.directDeps (some h) (g.dropHackLinks h) =
        DirectDepDups.directDeps (some h) g := by
      rw [DirectDepDups.directDeps_eq_group2, DirectDepDups.directDeps_eq_group2, ddItems, ddItems,
        PackageGraph.dropHackLinks]
      simp only
      rw [filter_filter_of_imp _ _ ?_ g.links]
      intro l hl
      rw [ddQualifies, Bool.and_eq_true, Bool.and_eq_true] at hl
      have := hl.1.2
      simp only [decide_eq_true_eq] at this ⊢
      intro he
      exact this (by rw [he])
    rw [DirectDepDups.run, DirectDepDups.run, hdd]
  · have hgd : DirectDuplicateGitDependencies.directDeps (some h) (g.dropHackLinks h) =
        DirectDuplicateGitDependencies.directDeps (some h) g := by
      rw [DirectDuplicateGitDependencies.gitDirectDeps_eq_group2,
        DirectDuplicateGitDependencies.gitDirectDeps_eq_group2, gitItems, gitItems,
        PackageGraph.dropHackLinks]
      simp only
      rw [filterMap_filter_of_none _ _ ?_ g.links]
      intro l hl
      simp only [decide_eq_false_iff_not, not_not] at hl
      have hcond : decide ((some h : Option String) ≠ some l.from_.name) = false := by
        simp [hl]
      rw [hcond]
      simp
    rw [DirectDuplicateGitDependencies.run, DirectDuplicateGitDependencies.run, hgd]

/-- C7: the four path-convention scenarios, running both rules. A package at
`crates/foo` named `foo` gets no error; any package at `lib/foo` gets
exactly the must-be-in-`crates/` error; a package at `crates/bar` named
`foo` gets exactly the directory-must-match-name error; a package at
`crates/foo/sub` named `foo` gets exactly the no-nesting error. -/
theorem cratesDirectoryRules_scenarios :
    (CratesOnlyInCratesDirectory.run "foo" "crates/foo" ++
      CratesInCratesDirectory.run "foo" "crates/foo") = [] ∧
    (∀ name : String,
      CratesOnlyInCratesDirectory.run name "lib/foo" ++
        CratesInCratesDirectory.run name "lib/foo" =
        [⟨.package name "lib/foo", .error,
          "crates are only allowed to be in the `crates/` directory"⟩]) ∧
    (CratesOnlyInCratesDirectory.run "foo" "crates/bar" ++
      CratesInCratesDirectory.run "foo" "crates/bar") =
      [⟨.package "foo" "crates/bar", .error,
        "crates in the `crates/` directory must be in a directory with the same name as the crate"⟩] ∧
    (CratesOnlyInCratesDirectory.run "foo" "crates/foo/sub" ++
      CratesInCratesDirectory.run "foo" "crates/foo/sub") =
      [⟨.package "foo" "crates/foo/sub", .error,
        "crates in the `crates/` directory must be in a flat directory structure, no nesting"⟩] := by
  refine ⟨by decide, ?_, by decide, by decide⟩
  intro name
  rfl

/-- The collected lint results: the `(source, message)` pairs
`handle_lint_results` iterates. Modelled from the spec (§3): the
`LintResults` struct itself lives in `nexlint/src/lint/runner.rs`, which is
not among the provided sources; the source name is kept as the rule-name
string the formatter prints. -/
structure LintResults : Type where
  messages : List (String × LintMessage)
deriving DecidableEq, Repr

/-- `handle_lint_results` from `nexlint-lints/src/lib.rs`: print every
message, then fail exactly when the message list is non-empty. -/
def handle_lint_results (results : LintResults) : Except String Unit :=
  if !results.messages.isEmpty then Except.error "there were lint errors"
  else Except.ok ()

def c8WarnResults : LintResults :=
  ⟨[("trailing-whitespace", ⟨.file "a.rs", .warning, "trailing whitespace at line 3"⟩)]⟩

/-- C8 (counterexample): a result set containing a single warning-level
message and no error-level message still makes `handle_lint_results` return
a failure — the check is on message presence, not on error level. -/
theorem handle_lint_results_warning_only_fails :
    (∀ m ∈ c8WarnResults.messages, m.2.level ≠ LintLevel.error) ∧
    handle_lint_results c8WarnResults = Except.error "there were lint errors" :=
  ⟨by decide, rfl⟩

/-- C8 (amended): `handle_lint_results` returns a failure if and only if at
least one message — of any level — is present; it returns success exactly on
an empty message list. -/
theorem handle_lint_results_fails_iff_any_message (results : LintResults) :
    (handle_lint_results results = Except.error "there were lint errors" ↔
      results.messages ≠ []) ∧
    (handle_lint_results results = Except.ok () ↔ results.messages = []) := by
  obtain ⟨msgs⟩ := results
  cases msgs with
  | nil => simp [handle_lint_results]
  | cons m rest => simp [handle_lint_results]

/-- The errors `GitCli::tracked_files` can produce (`SystemError` in
`nexlint/src/errors.rs`, restricted to the variants this path uses): an I/O
failure launching the command, a non-zero exit, or a non-UTF-8 path in the
output. -/
inductive SystemError : Type
  | io (msg : String)
  | exec (cmd : String)
  | nonUtf8Path (path : List Nat)
deriving DecidableEq, Repr

/-- Outcome of running the external `git ls-files -z` command: the spawn can
fail, or the process exits with a status and raw stdout bytes. -/
inductive GitCmdResult : Type
  | ioError (msg : String)
  | exited (success : Bool) (stdout : List Nat)
deriving DecidableEq, Repr

/-- `GitCli`: repository root plus the `OnceCell` cache of tracked files. -/
structure GitCli : Type where
  root : String
  tracked_files_cache : Option (List (List Nat))
deriving DecidableEq, Repr

/-- A UTF-8 continuation byte. -/
def contByte (b : Nat) : Bool := decide (0x80 ≤ b) && decide (b < 0xC0)

/-- Standard UTF-8 well-formedness of a byte sequence (rejecting overlong
encodings, surrogates and values beyond U+10FFFF). -/
def utf8Valid : List Nat → Bool
  | [] => true
  | b :: rest =>
    if b < 0x80 then utf8Valid rest
    else if b < 0xC2 then false
    else if b < 0xE0 then
      match rest with
      | b₁ :: r => contByte b₁ && utf8Valid r
      | [] => false
    else if b < 0xF0 then
      match rest with
      | b₁ :: b₂ :: r =>
        (if b = 0xE0 then decide (0xA0 ≤ b₁) && decide (b₁ < 0xC0)
         else if b = 0xED then decide (0x80 ≤ b₁) && decide (b₁ < 0xA0)
         else contByte b₁) && contByte b₂ && utf8Valid r
      | _ => false
    else if b < 0xF5 then
      match rest with
      | b₁ :: b₂ :: b₃ :: r =>
        (if b = 0xF0 then decide (0x90 ≤ b₁) && decide (b₁ < 0xC0)
         else if b = 0xF4 then decide (0x80 ≤ b₁) && decide (b₁ < 0x90)
         else contByte b₁) && contByte b₂ && contByte b₃ && utf8Valid r
      | _ => false
    else false

/-- Split a byte list at `0` separators, keeping empty chunks. -/
def splitOnByte : List Nat → List (List Nat)
  | [] => [[]]
  | x :: rest =>
    if x = 0 then [] :: splitOnByte rest
    else
      match splitOnByte rest with
      | h :: t => (x :: h) :: t
      | [] => [[x]]

/-- Drop the chunk after a trailing separator (the `git ls-files -z` output
ends with a separator, which does not start a new path). -/
def splitPaths : List (List Nat) → List (List Nat)
  | [] => []
  | [last] => if last = [] then [] else [last]
  | chunk :: rest => chunk :: splitPaths rest

/-- Modelled from the spec: `Utf8Paths0::from_bytes` (from the external
`determinator` crate, not part of this repository's sources) — interpret the
buffer as zero-byte-separated paths and require each path to be valid text;
returns the paths, or the first path that is not valid UTF-8 (§4.1:
"fails with a VcsError if ... the output is not valid text"). -/
def utf8Paths0_from_bytes (bytes : List Nat) :
    Except SystemError (List (List Nat)) :=
  let chunks := splitPaths (splitOnByte bytes)
  match chunks.find? (fun c => !utf8Valid c) with
  | some bad => .error (.nonUtf8Path bad)
  | none => .ok chunks

/-- `GitCli::tracked_files`: serve from the `OnceCell` if set; otherwise run
`git ls-files -z` (its outcome is the explicit `run` argument), mapping a
spawn failure to an I/O error, a non-zero exit to an exec error, and a parse
failure through; cache on success only. The returned `Bool` records whether
the command was invoked. -/
def GitCli.tracked_files (cli : GitCli) (run : GitCmdResult) :
    Except SystemError (List (List Nat)) × GitCli × Bool :=
  match cli.tracked_files_cache with
  | some paths => (.ok paths, cli, false)
  | none =>
    match run with
    | .ioError _ => (.error (.io "running git ls-files"), cli, true)
    | .exited false _ => (.error (.exec "git ls-files"), cli, true)
    | .exited true stdout =>
      match utf8Paths0_from_bytes stdout with
      | .ok paths => (.ok paths, { cli with tracked_files_cache := some paths }, true)
      | .error e => (.error e, cli, true)

/-- C9: `tracked_files` with a set cache returns the cached list unchanged
without invoking the command; with an empty cache it invokes the command and
fails exactly when the command cannot be run, exits unsuccessfully, or its
output contains a path that is not valid UTF-8; on success the parsed
null-separated path list is stored in the cache and every subsequent call
returns that same list without invoking the command again. -/
theorem GitCli.tracked_files_spec (cli : GitCli) (run : GitCmdResult) :
    (∀ paths, cli.tracked_files_cache = some paths →
      cli.tracked_files run = (.ok paths, cli, false)) ∧
    (cli.tracked_files_cache = none →
      (cli.tracked_files run).2.2 = true ∧
      ((∃ e, (cli.tracked_files run).1 = .error e) ↔
        (∃ m, run = .ioError m) ∨ (∃ out, run = .exited false out) ∨
        (∃ out, run = .exited true out ∧
          ∃ c ∈ splitPaths (splitOnByte out), utf8Valid c = false)) ∧
      (∀ out paths, run = .exited true out → utf8Paths0_from_bytes out = .ok paths →
        cli.tracked_files run = (.ok paths, ⟨cli.root, some paths⟩, true) ∧
        ∀ run₂, GitCli.tracked_files ⟨cli.root, some paths⟩ run₂ =
          (.ok paths, ⟨cli.root, some paths⟩, false))) := by
  obtain ⟨root, cache⟩ := cli
  cases cache with
  | some paths =>
    refine ⟨?_, ?_⟩
    · intro paths' h
      injection h with h
      rw [h]
      rfl
    · intro h
      cases h
  | none =>
    refine ⟨?_, fun _ => ⟨?_, ?_, ?_⟩⟩
    · intro paths h
      cases h
    · cases run with
      | ioError m => rfl
      | exited success stdout =>
        cases success with
        | false => rfl
        | true =>
          show (match utf8Paths0_from_bytes stdout with
            | .ok paths =>
              ((.ok paths : Except SystemError (List (List Nat))),
                ({ root := root, tracked_files_cache := some paths } : GitCli), true)
            | .error e => (.error e, ⟨root, none⟩, true)).2.2 = true
          cases utf8Paths0_from_bytes stdout with
          | ok paths => rfl
          | error e => rfl
    · cases run with
      | ioError m =>
        constructor
        · intro _
          exact Or.inl ⟨m, rfl⟩
        · intro _
          exact ⟨.io "running git ls-files", rfl⟩
      | exited success stdout =>
        cases success with
        | false =>
          constructor
          · intro _
            exact Or.inr (Or.inl ⟨stdout, rfl⟩)
          · intro _
            exact ⟨.exec "git ls-files", rfl⟩
        | true =>
          have hshape : GitCli.tracked_files ⟨root, none⟩ (.exited true stdout) =
              (match utf8Paths0_from_bytes stdout with
                | .ok paths =>
                  ((.ok paths : Except SystemError (List (List Nat))),
                    ({ root := root, tracked_files_cache := some paths } : GitCli), true)
                | .error e => (.error e, ⟨root, none⟩, true)) := rfl
          rw [hshape]
          cases hfb : utf8Paths0_from_bytes stdout with
          | ok paths =>
            constructor
            · rintro ⟨e, he⟩
              exact Except.noConfusion he
            · rintro (⟨m, hm⟩ | ⟨out, hout⟩ | ⟨out, hout, c, hc, hcv⟩)
              · cases hm
              · cases hout
              · exfalso
                injection hout with _ hout'
                subst hout'
                simp only [utf8Paths0_from_bytes] at hfb
                cases hfind : (splitPaths (splitOnByte stdout)).find?
                    (fun c => !utf8Valid c) with
                | some bad =>
                  rw [hfind] at hfb
                  cases hfb
                | none =>
                  rw [List.find?_eq_none] at hfind
                  exact hfind c hc (by rw [hcv]; rfl)
          | error e =>
            constructor
            · intro _
              refine Or.inr (Or.inr ⟨stdout, rfl, ?_⟩)
              simp only [utf8Paths0_from_bytes] at hfb
              cases hfind : (splitPaths (splitOnByte stdout)).find?
                  (fun c => !utf8Valid c) with
              | none =>
                rw [hfind] at hfb
                cases hfb
              | some bad =>
                refine ⟨bad, List.mem_of_find?_eq_some hfind, ?_⟩
                have hbad := List.find?_some hfind
                simpa using hbad
            · intro _
              exact ⟨e, rfl⟩
    · intro out paths hrun hfb
      subst hrun
      have hshape : GitCli.tracked_files ⟨root, none⟩ (.exited true out) =
          (match utf8Paths0_from_bytes out with
            | .ok paths =>
              ((.ok paths : Except SystemError (List (List Nat))),
                ({ root := root, tracked_files_cache := some paths } : GitCli), true)
            | .error e => (.error e, ⟨root, none⟩, true)) := rfl
      rw [hshape, hfb]
      exact ⟨rfl, fun run₂ => rfl⟩

/-- The file types `LicenseHeader` knows (`license.rs`). -/
inductive FileType : Type
  | rust
  | shell
  | proto
  | javascript
  | typescript
  | move
  | python
deriving DecidableEq, Repr

/-- `FileType::new`, keyed on the file extension. -/
def FileType.new : Option String → Option FileType
  | some "rs" => some .rust
  | some "sh" => some .shell
  | some "proto" => some .proto
  | some "js" => some .javascript
  | some "jsx" => some .javascript
  | some "cjs" => some .javascript
  | some "mjs" => some .javascript
  | some "ts" => some .typescript
  | some "tsx" => some .typescript
  | some "mts" => some .typescript
  | some "cts" => some .typescript
  | some "move" => some .move
  | some "py" => some .python
  | _ => none

/-- Strip one trailing carriage return (for chunks that were followed by a
newline), as `str::lines` does. -/
def stripCr (l : List Char) : List Char :=
  if l.getLast? = some '\r' then l.dropLast else l

/-- Rebuild `str::lines` chunks: every chunk but the last was
newline-terminated and loses a trailing `\r`; a final empty chunk (from a
trailing newline) yields no line. -/
def linesAux : List (List Char) → List (List Char)
  | [] => []
  | [last] => if last = [] then [] else [last]
  | chunk :: rest => stripCr chunk :: linesAux rest

/-- `str::lines` on a character list. -/
def rustLines (s : List Char) : List (List Char) :=
  linesAux (splitOnChar '\n' s)

/-- Fuel-driven worker for `dropPrefixAll`; every successful step removes at
least one character, so `s.length` fuel always suffices. -/
def dropPrefixAllGo (pat : List Char) : Nat → List Char → List Char
  | 0, s => s
  | fuel + 1, s =>
    if pat ≠ [] && pat.isPrefixOf s then
      dropPrefixAllGo pat fuel (s.drop pat.length)
    else s

/-- `str::trim_start_matches(pat)`: repeatedly strip the prefix while it
matches. -/
def dropPrefixAll (pat : List Char) (s : List Char) : List Char :=
  dropPrefixAllGo pat s.length s

/-- The `maybe_license` line set of `LicenseHeader::run`: for `//`-commented
types, the first four lines after leading blank lines, each stripped of `// `
markers; for shell/python, leading `#!` lines are skipped first and `# `
markers are stripped. -/
def licenseMaybe (ft : FileType) (content : List Char) : List (List Char) :=
  match ft with
  | .rust | .proto | .javascript | .typescript | .move =>
    (((rustLines content).dropWhile (fun line => line.isEmpty)).take 4).map
      (dropPrefixAll ['/', '/', ' '])
  | .shell | .python =>
    ((((rustLines content).dropWhile (fun line => ['#', '!'].isPrefixOf line)).dropWhile
        (fun line => line.isEmpty)).take 4).map
      (dropPrefixAll ['#', ' '])

/-- `missing_header` from `LicenseHeader::run`: the template's line set is
not a subset of `maybe_license` (`HashSet::is_subset`, i.e. some template
line is missing from the candidate set). -/
def licenseMissingHeader (template : List Char) (ft : FileType)
    (content : List Char) : Bool :=
  !((rustLines template).all (fun l => (licenseMaybe ft content).contains l))

/-- `LicenseHeader::run` on decoded content of a supported file type: one
file-level error exactly when the header is missing. -/
def LicenseHeader.run (template : List Char) (ft : FileType) (path : String)
    (content : List Char) : List LintMessage :=
  if licenseMissingHeader template ft content then
    [⟨.file path, .error, "missing license header"⟩]
  else []

theorem licenseMissingHeader_iff (template : List Char) (ft : FileType)
    (content : List Char) :
    licenseMissingHeader template ft content = true ↔
      ¬ (∀ l ∈ rustLines template, l ∈ licenseMaybe ft content) := by
  rw [licenseMissingHeader]
  simp

/-- C10: the rule reports "missing license header" if and only if some line
of the template is not among the candidate lines (first four lines after
leading blanks — and, for shell/python, leading `#!` lines — each stripped
of its leading comment markers); the only possible output is that single
error; and the check is not a literal prefix match: a file whose first lines
hold the template's lines out of order and interleaved with another line
passes. -/
theorem LicenseHeader.subset_check (template : List Char) (ft : FileType)
    (path : String) (content : List Char) :
    (LicenseHeader.run template ft path content ≠ [] ↔
      ¬ (∀ l ∈ rustLines template, l ∈ licenseMaybe ft content)) ∧
    (LicenseHeader.run template ft path content = [] ∨
      LicenseHeader.run template ft path content =
        [⟨.file path, .error, "missing license header"⟩]) ∧
    ((rustLines "AAA\nBBB".data).isPrefixOf
      (rustLines "// BBB\nother line\n// AAA\nrest".data) = false) ∧
    licenseMissingHeader "AAA\nBBB".data .rust
      "// BBB\nother line\n// AAA\nrest".data = false := by
  refine ⟨?_, ?_, by decide, by decide⟩
  · rw [LicenseHeader.run]
    cases hb : licenseMissingHeader template ft content with
    | true =>
      have hiff := (licenseMissingHeader_iff template ft content).mp hb
      simp [hiff]
    | false =>
      have hall : ∀ l ∈ rustLines template, l ∈ licenseMaybe ft content := by
        by_contra hn
        exact absurd ((licenseMissingHeader_iff template ft content).mpr hn)
          (by rw [hb]; simp)
      simp
      exact hall
  · rw [LicenseHeader.run]
    cases licenseMissingHeader template ft content with
    | true => exact Or.inr rfl
    | false => exact Or.inl rfl

/-- Witness for C6 (amended) at a concrete configuration and graph. -/
theorem projectRules_ignore_hack_edges_witness :
    BannedDeps.run [] (some "wh") (c6Graph.dropHackLinks "wh") =
      BannedDeps.run [] (some "wh") c6Graph ∧
    DirectDepDups.run ⟨[]⟩ (some "wh") (c6Graph.dropHackLinks "wh") =
      DirectDepDups.run ⟨[]⟩ (some "wh") c6Graph ∧
    DirectDuplicateGitDependencies.run (some "wh") (c6Graph.dropHackLinks "wh") =
      DirectDuplicateGitDependencies.run (some "wh") c6Graph :=
  projectRules_ignore_hack_edges [] ⟨[]⟩ "wh" c6Graph

/-- Witness for C7 at a concrete crate name. -/
theorem cratesDirectoryRules_scenarios_witness :
    CratesOnlyInCratesDirectory.run "mylib" "lib/foo" ++
      CratesInCratesDirectory.run "mylib" "lib/foo" =
      [⟨.package "mylib" "lib/foo", .error,
        "crates are only allowed to be in the `crates/` directory"⟩] :=
  cratesDirectoryRules_scenarios.2.1 "mylib"

/-- Witness for C8 (amended) at the warning-only result set. -/
theorem handle_lint_results_fails_iff_any_message_witness :
    (handle_lint_results c8WarnResults = Except.error "there were lint errors" ↔
      c8WarnResults.messages ≠ []) ∧
    (handle_lint_results c8WarnResults = Except.ok () ↔ c8WarnResults.messages = []) :=
  handle_lint_results_fails_iff_any_message c8WarnResults

def c9Cli : GitCli := ⟨"/repo", none⟩

def c9Out : List Nat := [97, 0, 98, 99, 0]

/-- Witness for C9: a fresh `GitCli` and a successful `git ls-files -z` run
whose stdout is `a\0bc\0`; the parse yields the two paths and the spec
theorem applies. -/
theorem GitCli.tracked_files_spec_witness :
    utf8Paths0_from_bytes c9Out = .ok [[97], [98, 99]] ∧
    ((∀ paths, c9Cli.tracked_files_cache = some paths →
      c9Cli.tracked_files (.exited true c9Out) = (.ok paths, c9Cli, false)) ∧
    (c9Cli.tracked_files_cache = none →
      (c9Cli.tracked_files (.exited true c9Out)).2.2 = true ∧
      ((∃ e, (c9Cli.tracked_files (.exited true c9Out)).1 = .error e) ↔
        (∃ m, (GitCmdResult.exited true c9Out) = .ioError m) ∨
        (∃ out, (GitCmdResult.exited true c9Out) = .exited false out) ∨
        (∃ out, (GitCmdResult.exited true c9Out) = .exited true out ∧
          ∃ c ∈ splitPaths (splitOnByte out), utf8Valid c = false)) ∧
      (∀ out paths, (GitCmdResult.exited true c9Out) = .exited true out →
        utf8Paths0_from_bytes out = .ok paths →
        c9Cli.tracked_files (.exited true c9Out) =
          (.ok paths, ⟨c9Cli.root, some paths⟩, true) ∧
        ∀ run₂, GitCli.tracked_files ⟨c9Cli.root, some paths⟩ run₂ =
          (.ok paths, ⟨c9Cli.root, some paths⟩, false)))) :=
  ⟨rfl, GitCli.tracked_files_spec c9Cli (.exited true c9Out)⟩

/-- Witness for C10: a file without the header is flagged, a file with it is
not, and the spec theorem applies at a concrete template and content. -/
theorem LicenseHeader.subset_check_witness :
    LicenseHeader.run "AAA".data .rust "src/a.rs" "no header here".data =
      [⟨.file "src/a.rs", .error, "missing license header"⟩] ∧
    LicenseHeader.run "AAA".data .rust "src/b.rs" "// AAA\nrest".data = [] ∧
    ((LicenseHeader.run "AAA".data .rust "src/a.rs" "no header here".data ≠ [] ↔
      ¬ (∀ l ∈ rustLines "AAA".data,
        l ∈ licenseMaybe .rust "no header here".data)) ∧
    (LicenseHeader.run "AAA".data .rust "src/a.rs" "no header here".data = [] ∨
      LicenseHeader.run "AAA".data .rust "src/a.rs" "no header here".data =
        [⟨.file "src/a.rs", .error, "missing license header"⟩]) ∧
    ((rustLines "AAA\nBBB".data).isPrefixOf
      (rustLines "// BBB\nother line\n// AAA\nrest".data) = false) ∧
    licenseMissingHeader "AAA\nBBB".data .rust
      "// BBB\nother line\n// AAA\nrest".data = false) :=
  ⟨by decide, by decide,
    LicenseHeader.subset_check "AAA".data .rust "src/a.rs" "no header here".data⟩
